import Mathlib

/-!
# Verification of the DJAK TEI converter's annotation-reconciliation engine

Shallow embedding of the core of `scripts/tei_convertor_final.py`:

* the pattern compiler `create_label_regex` (modelled as a function from a
  label, given as a list of characters, to a list of regex tokens, together
  with an executable matching semantics `reMatch`/`reSearch` for exactly the
  token shapes the compiler emits);
* the splice primitives of `add_comment` / `add_critical`;
* the placement drivers `add_comments` (per page) and
  `add_critical_apparatus` (per page), over a two-level tree model
  (paragraphs with one level of children), which is the shape the drivers'
  sibling walks actually inspect: the Python code only ever reads
  `p.text`, `child.text` and `child.tail` of direct children of `<p>`
  elements, so nested structure below a child never influences the scan and
  is represented by the summary field `inner`;
* the witness reconciler `extract_witnesses_right` and `parse_wits`.

Text is modelled as `List Char`.  Python's `None` text fields are modelled
as `[]` (the code wraps every read in `safe`, which maps `None` to `''`;
the only place truthiness of a possibly-`None` field matters is the
`current_p.text` guard, which is false for both `None` and `''`, hence
equal to the `≠ []` test on the model).  Exceptions are modelled by
`Option` results (`none` = the Python code raises).

`strip_accents` delegates to `unidecode`; here it is modelled character by
character on the repertoire occurring in these documents (identity on
ASCII, a table for the Czech accented letters and the horizontal ellipsis,
and the function's own `ignore_list` kept verbatim).
-/

namespace TeiConv

/-- Text, as the Python code sees it: a sequence of characters. -/
abbrev Str := List Char

/-- Python's `\w` (word character) for the ASCII repertoire relevant here:
alphanumeric or underscore. -/
def isWordChar (c : Char) : Bool := c.isAlphanum || c = '_'

/-- The soft hyphen `U+00AD` removed by `create_label_regex`
(`b'\xc2\xad'.decode()`). -/
def softHyphen : Char := Char.ofNat 173

/-- `strip_accents`' `ignore_list`: characters passed through unchanged. -/
def ignoreList : Str :=
  ['„', '“', '§', '†', '—', 'ὐ', 'τ', 'ὸ', 'ς', 'ἕ', 'φ', 'α', 'ß', '°']

/-- Per-character model of `unidecode` on the repertoire of these documents:
identity on ASCII, ASCII-folding for the Czech accented letters, and the
horizontal ellipsis expanding to three periods. -/
def unidecodeChar (c : Char) : Str :=
  if c = 'á' then ['a'] else if c = 'é' then ['e'] else
  if c = 'í' then ['i'] else if c = 'ó' then ['o'] else
  if c = 'ú' then ['u'] else if c = 'ů' then ['u'] else
  if c = 'ý' then ['y'] else if c = 'č' then ['c'] else
  if c = 'ď' then ['d'] else if c = 'ě' then ['e'] else
  if c = 'ň' then ['n'] else if c = 'ř' then ['r'] else
  if c = 'š' then ['s'] else if c = 'ť' then ['t'] else
  if c = 'ž' then ['z'] else
  if c = 'Á' then ['A'] else if c = 'É' then ['E'] else
  if c = 'Í' then ['I'] else if c = 'Č' then ['C'] else
  if c = 'Š' then ['S'] else if c = 'Ž' then ['Z'] else
  if c = '…' then ['.', '.', '.'] else [c]

/-- `strip_accents`: characters of the `ignore_list` are kept, everything
else goes through `unidecode`. -/
def strip_accents (s : Str) : Str :=
  s.flatMap (fun c => if c ∈ ignoreList then [c] else unidecodeChar c)

/-- Python `str.strip()` on the left. -/
def stripLeft (s : Str) : Str := s.dropWhile Char.isWhitespace

/-- Python `str.strip()`: drop whitespace from both ends. -/
def pyStrip (s : Str) : Str := (stripLeft (stripLeft s).reverse).reverse

/-! ## Pattern compiler: `create_label_regex`

The compiler produces a regular expression built from a fixed, small set of
shapes: literal (escaped) characters, the permissive joiner
`(?: |\|?<PO_\d+>)*` inserted between label characters, the non-greedy
wildcard `.*?` produced from ellipsis runs, word boundaries `\b`, and the
optional character classes `[„"]?` (leading quote) and `[,.:;?!]?`
(trailing punctuation).  `<LAT>`/`</LAT>` delimiters are literal text and
are represented by their literal characters.  A token list represents the
concatenation of these shapes; matching is case-insensitive (`re.I`). -/

/-- One token of a compiled label pattern. -/
inductive Tok where
  | lit (c : Char)
  | joiner
  | wild
  | wb
  | opt (cs : Str)
deriving DecidableEq, Repr

/-- The `[„"]?` optional leading-quote class. -/
def quoteCls : Str := ['„', '"']

/-- The `[,.:;?!]?` optional trailing-punctuation class. -/
def punctCls : Str := [',', '.', ':', ';', '?', '!']

/-- Literal tokens for a piece of fixed text. -/
def lits (s : Str) : List Tok := s.map Tok.lit

/-- Intermediate characters during the ellipsis-substitution passes: plain
characters plus the two replacement markers `\b.*?` and `.*?`. -/
inductive RCh where
  | ch (c : Char)
  | wbWild
  | wild
deriving DecidableEq, Repr

/-- Count the leading run of periods. -/
def dotRun : Str → Nat × Str
  | '.' :: r => ((dotRun r).1 + 1, (dotRun r).2)
  | s => (0, s)

/-- Count the leading run of `.ch '.'` in an `RCh` string. -/
def dotRunR : List RCh → Nat × List RCh
  | .ch '.' :: r => ((dotRunR r).1 + 1, (dotRunR r).2)
  | s => (0, s)

/-- The greedy trailing ` ?` of the ellipsis patterns; returns the last
character of the whole consumed region (a space, or else a period) and the
rest. -/
def dropOneSpace : Str → Char × Str
  | ' ' :: r => (' ', r)
  | s => ('.', s)

def dropOneSpaceR : List RCh → List RCh
  | .ch ' ' :: r => r
  | s => s

/-- Match, at the current position, one alternative of the ellipsis pattern
`(\.{3,} ?|\.{2,} \.+ ?|\. \.{2,} ?)` (alternatives tried in this order,
runs greedy).  Returns the last consumed character and the rest. -/
def ellipMatch (s : Str) : Option (Char × Str) :=
  if (dotRun s).1 ≥ 3 then some (dropOneSpace (dotRun s).2)
  else if (dotRun s).1 = 2 then
    match (dotRun s).2 with
    | ' ' :: r' =>
      if (dotRun r').1 ≥ 1 then some (dropOneSpace (dotRun r').2) else none
    | _ => none
  else if (dotRun s).1 = 1 then
    match (dotRun s).2 with
    | ' ' :: r' =>
      if (dotRun r').1 ≥ 2 then some (dropOneSpace (dotRun r').2) else none
    | _ => none
  else none

/-- Same matcher over `RCh` strings (markers never take part in a run). -/
def ellipMatchR (s : List RCh) : Option (List RCh) :=
  if (dotRunR s).1 ≥ 3 then some (dropOneSpaceR (dotRunR s).2)
  else if (dotRunR s).1 = 2 then
    match (dotRunR s).2 with
    | .ch ' ' :: r' =>
      if (dotRunR r').1 ≥ 1 then some (dropOneSpaceR (dotRunR r').2) else none
    | _ => none
  else if (dotRunR s).1 = 1 then
    match (dotRunR s).2 with
    | .ch ' ' :: r' =>
      if (dotRunR r').1 ≥ 2 then some (dropOneSpaceR (dotRunR r').2) else none
    | _ => none
  else none

theorem dotRun_length (s : Str) : (dotRun s).1 + (dotRun s).2.length = s.length := by
  induction s with
  | nil => rfl
  | cons c r ih =>
    rw [dotRun.eq_def]
    split
    · rename_i r' heq
      cases heq
      simp only [List.length_cons]
      omega
    · simp

theorem dotRunR_length (s : List RCh) :
    (dotRunR s).1 + (dotRunR s).2.length = s.length := by
  induction s with
  | nil => rfl
  | cons c r ih =>
    rw [dotRunR.eq_def]
    split
    · rename_i r' heq
      cases heq
      simp only [List.length_cons]
      omega
    · simp

theorem dropOneSpace_length (s : Str) : (dropOneSpace s).2.length ≤ s.length := by
  rw [dropOneSpace.eq_def]
  split <;> simp

theorem dropOneSpaceR_length (s : List RCh) : (dropOneSpaceR s).length ≤ s.length := by
  rw [dropOneSpaceR.eq_def]
  split <;> simp

theorem ellipMatch_length {s : Str} {c : Char} {r : Str}
    (h : ellipMatch s = some (c, r)) : r.length < s.length := by
  have hd := dotRun_length s
  unfold ellipMatch at h
  split at h
  · rename_i hn
    have h1 : r = (dropOneSpace (dotRun s).2).2 :=
      (congrArg Prod.snd (Option.some.inj h)).symm
    have h1l := congrArg List.length h1
    have h2 := dropOneSpace_length (dotRun s).2
    omega
  · split at h
    · rename_i hn2
      split at h
      · rename_i r' heq
        have hd2 := dotRun_length r'
        have hlen : r'.length + 1 = (dotRun s).2.length := by rw [heq]; rfl
        split at h
        · have h1 : r = (dropOneSpace (dotRun r').2).2 :=
            (congrArg Prod.snd (Option.some.inj h)).symm
          have h1l := congrArg List.length h1
          have h2 := dropOneSpace_length (dotRun r').2
          omega
        · exact absurd h (by simp)
      · exact absurd h (by simp)
    · split at h
      · split at h
        · rename_i r' heq
          have hd2 := dotRun_length r'
          have hlen : r'.length + 1 = (dotRun s).2.length := by rw [heq]; rfl
          split at h
          · have h1 : r = (dropOneSpace (dotRun r').2).2 :=
              (congrArg Prod.snd (Option.some.inj h)).symm
            have h1l := congrArg List.length h1
            have h2 := dropOneSpace_length (dotRun r').2
            omega
          · exact absurd h (by simp)
        · exact absurd h (by simp)
      · exact absurd h (by simp)

theorem ellipMatchR_length {s r : List RCh}
    (h : ellipMatchR s = some r) : r.length < s.length := by
  have hd := dotRunR_length s
  unfold ellipMatchR at h
  split at h
  · rename_i hn
    have h1 : r = dropOneSpaceR (dotRunR s).2 := (Option.some.inj h).symm
    have h1l := congrArg List.length h1
    have h2 := dropOneSpaceR_length (dotRunR s).2
    omega
  · split at h
    · rename_i hn2
      split at h
      · rename_i r' heq
        have hd2 := dotRunR_length r'
        have hlen : r'.length + 1 = (dotRunR s).2.length := by rw [heq]; rfl
        split at h
        · have h1 : r = dropOneSpaceR (dotRunR r').2 := (Option.some.inj h).symm
          have h1l := congrArg List.length h1
          have h2 := dropOneSpaceR_length (dotRunR r').2
          omega
        · exact absurd h (by simp)
      · exact absurd h (by simp)
    · split at h
      · split at h
        · rename_i r' heq
          have hd2 := dotRunR_length r'
          have hlen : r'.length + 1 = (dotRunR s).2.length := by rw [heq]; rfl
          split at h
          · have h1 : r = dropOneSpaceR (dotRunR r').2 := (Option.some.inj h).symm
            have h1l := congrArg List.length h1
            have h2 := dropOneSpaceR_length (dotRunR r').2
            omega
          · exact absurd h (by simp)
        · exact absurd h (by simp)
      · exact absurd h (by simp)

/-- First substitution pass:
`re.sub(r'(?<=\w)(\.{3,} ?|\.{2,} \.+ ?|\. \.{2,} ?)', r'\\b.*?', s)`.
`re.sub` scans left to right, replacing non-overlapping leftmost matches;
the lookbehind consults the character of the subject immediately before the
match. -/
def sub1F : Nat → Option Char → Str → List RCh
  | 0, _, _ => []
  | _ + 1, _, [] => []
  | fuel + 1, prev, c :: rest =>
    if prev.elim false isWordChar then
      match ellipMatch (c :: rest) with
      | some (last, r) => .wbWild :: sub1F fuel (some last) r
      | none => .ch c :: sub1F fuel (some c) rest
    else .ch c :: sub1F fuel (some c) rest

/-- The fuel `s.length + 1` always suffices: by `ellipMatch_length` every
step of the scan consumes at least one character. -/
def sub1 (prev : Option Char) (s : Str) : List RCh := sub1F (s.length + 1) prev s

/-- Second substitution pass:
`re.sub(r'(\.{3,} ?|\.{2,} \.+ ?|\. \.{2,} ?)', r'.*?', s)`, applied to the
output of the first pass (the markers emitted by the first pass never take
part in a period run). -/
def sub2F : Nat → List RCh → List RCh
  | 0, _ => []
  | _ + 1, [] => []
  | fuel + 1, c :: rest =>
    match ellipMatchR (c :: rest) with
    | some r => .wild :: sub2F fuel r
    | none => c :: sub2F fuel rest

/-- The fuel `s.length + 1` always suffices, by `ellipMatchR_length`. -/
def sub2 (s : List RCh) : List RCh := sub2F (s.length + 1) s

/-- One part of the split
`re.split(r'(</?LAT>|(?:\\b)?\.\*\?)', label_regex_string)` (empty parts
dropped): either literal label text, one of the two wildcard delimiters, or
a `<LAT>`/`</LAT>` delimiter. -/
inductive Part where
  | txt (cs : Str)
  | pwbWild
  | pwild
  | latOpen
  | latClose
deriving DecidableEq, Repr

/-- Flush a reversed accumulator of text characters into a part. -/
def flushAcc (acc : Str) (ps : List Part) : List Part :=
  if acc = [] then ps else .txt acc.reverse :: ps

/-- The splitting scanner.  The delimiters are the two markers, the literal
sequences `<LAT>` and `</LAT>`, and — because the split operates on the
regex string, where the markers read `\b.*?` and `.*?` — those five- and
three-character literal sequences as well. -/
def splitScan : Str → List RCh → List Part
  | acc, [] => flushAcc acc []
  | acc, .wbWild :: r => flushAcc acc (.pwbWild :: splitScan [] r)
  | acc, .wild :: r => flushAcc acc (.pwild :: splitScan [] r)
  | acc, .ch '<' :: .ch '/' :: .ch 'L' :: .ch 'A' :: .ch 'T' :: .ch '>' :: r =>
      flushAcc acc (.latClose :: splitScan [] r)
  | acc, .ch '<' :: .ch 'L' :: .ch 'A' :: .ch 'T' :: .ch '>' :: r =>
      flushAcc acc (.latOpen :: splitScan [] r)
  | acc, .ch '\\' :: .ch 'b' :: .ch '.' :: .ch '*' :: .ch '?' :: r =>
      flushAcc acc (.pwbWild :: splitScan [] r)
  | acc, .ch '.' :: .ch '*' :: .ch '?' :: r =>
      flushAcc acc (.pwild :: splitScan [] r)
  | acc, .ch c :: r => splitScan (c :: acc) r

def splitParts (s : List RCh) : List Part := splitScan [] s

/-- Interleave the joiner between the tokens of a list of literals:
`joiner.join([re.escape(p) for p in list(clean_part)])`. -/
def interleaveJoiner : Str → List Tok
  | [] => []
  | [c] => [.lit c]
  | c :: rest => .lit c :: .joiner :: interleaveJoiner rest

/-- Per-part token rendering (the loop body of `create_label_regex`): label
text has its spaces removed and the permissive joiner injected between
every pair of characters; delimiters are kept. -/
def partToks : Part → List Tok
  | .txt cs => interleaveJoiner (cs.filter (· ≠ ' '))
  | .pwbWild => [.wb, .wild]
  | .pwild => [.wild]
  | .latOpen => lits ['<', 'L', 'A', 'T', '>']
  | .latClose => lits ['<', '/', 'L', 'A', 'T', '>']

/-- A segment of the second split
`re.split('(</?LAT>)', label_regex_string)` (with empty strings dropped):
either one of the two delimiters, or the rendered tokens of a maximal run
of non-`LAT` parts. -/
inductive LatSeg where
  | openTag
  | closeTag
  | seg (ts : List Tok)
deriving DecidableEq, Repr

/-- Group the rendered parts into `LAT`-delimited segments, dropping empty
text segments, mirroring the second split on the joined regex string.  (No
non-delimiter segment can spell `<LAT>` or `</LAT>` literally: the joiner
text injected between label characters is nonempty.) -/
def latSegsScan : List Tok → List Part → List LatSeg
  | acc, [] => if acc = [] then [] else [.seg acc]
  | acc, .latOpen :: r =>
      if acc = [] then .openTag :: latSegsScan [] r
      else .seg acc :: .openTag :: latSegsScan [] r
  | acc, .latClose :: r =>
      if acc = [] then .closeTag :: latSegsScan [] r
      else .seg acc :: .closeTag :: latSegsScan [] r
  | acc, p :: r => latSegsScan (acc ++ partToks p) r

def latSegs (ps : List Part) : List LatSeg := latSegsScan [] ps

/-- Render a segment, after the boundary adjustment. -/
def segToks : LatSeg → List Tok
  | .openTag => lits ['<', 'L', 'A', 'T', '>']
  | .closeTag => lits ['<', '/', 'L', 'A', 'T', '>']
  | .seg ts => ts

/-- `label_regex_string_parts[0] == '<LAT>'` adjustment: a leading `<LAT>`
delimiter becomes `<LAT>[„"]?`, otherwise `[„"]?` is prepended. -/
def addLeadQuote : List LatSeg → List (List Tok)
  | .openTag :: rest => (lits ['<', 'L', 'A', 'T', '>'] ++ [.opt quoteCls]) :: rest.map segToks
  | segs => [.opt quoteCls] :: segs.map segToks

/-- `label_regex_string_parts[-1] == '</LAT>'` adjustment: a trailing
`</LAT>` becomes `[,.:;?!]?</LAT>`, otherwise `[,.:;?!]?` is appended. -/
def addTrailPunct (parts : List (List Tok)) : List (List Tok) :=
  match parts.getLast? with
  | some last =>
      if last = segToks .closeTag then
        parts.dropLast ++ [[Tok.opt punctCls] ++ lits ['<', '/', 'L', 'A', 'T', '>']]
      else parts ++ [[Tok.opt punctCls]]
  | none => parts ++ [[Tok.opt punctCls]]

/-- `re.sub(r'(.*?)(\w)(\[,\.:;\?!\]\?)(.*)', r'\1\2\\b\3\4', ...)`: insert
a word boundary between the first word character that immediately precedes
the literal `[,.:;?!]?` class and that class.  The class occurs exactly
once in a compiled pattern and a preceding escaped character's last
character is a word character iff the character itself is. -/
def insWbBeforePunct : List Tok → List Tok
  | .lit c :: .opt cs :: rest =>
      if cs = punctCls ∧ isWordChar c then .lit c :: .wb :: .opt cs :: rest
      else .lit c :: insWbBeforePunct (.opt cs :: rest)
  | t :: rest => t :: insWbBeforePunct rest
  | [] => []

/-- The `IMPOSSIBLE_MATCH_PLACEHOLDER` sentinel returned when the label
reduces to an empty regex string: `re.compile` of that literal text. -/
def sentinelToks : List Tok :=
  lits ['I', 'M', 'P', 'O', 'S', 'S', 'I', 'B', 'L', 'E', '_', 'M', 'A', 'T',
        'C', 'H', '_', 'P', 'L', 'A', 'C', 'E', 'H', 'O', 'L', 'D', 'E', 'R']

/-- Python `str.replace('. . .', '...')`: left-to-right, non-overlapping. -/
def replaceDots3 : Str → Str
  | '.' :: ' ' :: '.' :: ' ' :: '.' :: r => '.' :: '.' :: '.' :: replaceDots3 r
  | c :: r => c :: replaceDots3 r
  | [] => []

/-- The cleaned label: `label.strip().replace(SOFT_HYPHEN, '')`, accent
stripping, and `'. . .' → '...'` replacement (the value the Python code
keeps in `stripped_label`). -/
def cleanedLabel (label : Str) : Str :=
  replaceDots3 (strip_accents ((pyStrip label).filter (· ≠ softHyphen)))

/-- The label after cleaning, ellipsis rewriting and splitting: the
`LAT`-delimited segments of parts (`label_regex_string_parts`).  An empty
result is the "label reduced to nothing" case. -/
def regexCore (label : Str) : List LatSeg :=
  latSegs (splitParts (sub2 (sub1 none (cleanedLabel label))))

/-- The boundary assembly of `create_label_regex` (quote prefix,
punctuation suffix, word-boundary insertion and the leading/trailing `\b`
decided by the cleaned label), or the sentinel when the parts are empty. -/
def assembleRegex (cleaned : Str) (segs : List LatSeg) : List Tok :=
  match segs with
  | [] => sentinelToks
  | _ =>
    let withPunct := addTrailPunct (addLeadQuote segs)
    let flat := insWbBeforePunct withPunct.flatten
    let flat :=
      if (cleaned.head?.elim false isWordChar) then Tok.wb :: flat else flat
    if (cleaned.getLast?.elim false isWordChar) then flat ++ [Tok.wb] else flat

/-- `create_label_regex`: compile a literal label into a token pattern. -/
def create_label_regex (label : Str) : List Tok :=
  assembleRegex (cleanedLabel label) (regexCore label)

/-! ## Matching semantics

`reMatch toks s prev` returns the number of characters of `s` consumed by
the match that Python's backtracking engine reports first (alternatives in
order; greedy pieces longest-first; the non-greedy `.*?` shortest-first),
or `none` when no match starts here.  `prev` is the character immediately
preceding the current position in the subject (for `\b`).  Matching is
case-insensitive, as all patterns are compiled with `re.I`. -/

/-- Is there a word boundary between `prev` and the next character? -/
def atBoundary (prev : Option Char) (next : Option Char) : Bool :=
  (prev.elim false isWordChar) != (next.elim false isWordChar)

/-- Consume one `\|?<PO_\d+>` unit of the joiner (optional pipe, literal
`<PO_`, one or more digits — greedy — and `>`).  Returns the number of
characters consumed and the rest. -/
def consumePOCore : Str → Option (Nat × Str)
  | '<' :: 'P' :: 'O' :: '_' :: r =>
    let ds := r.takeWhile Char.isDigit
    let rest := r.dropWhile Char.isDigit
    if ds = [] then none
    else
      match rest with
      | '>' :: r' => some (4 + ds.length + 1, r')
      | _ => none
  | _ => none

def consumePO : Str → Option (Nat × Str)
  | '|' :: r =>
    match consumePOCore r with
    | some (k, r') => some (k + 1, r')
    | none => none
  | s => consumePOCore s

theorem dropWhile_length_le (p : Char → Bool) (l : Str) :
    (l.dropWhile p).length ≤ l.length := by
  induction l with
  | nil => simp [List.dropWhile]
  | cons c r ih =>
    rw [List.dropWhile]
    split <;> simp <;> omega

theorem consumePOCore_length {s r : Str} {k : Nat}
    (h : consumePOCore s = some (k, r)) : r.length < s.length := by
  unfold consumePOCore at h
  split at h
  · rename_i r0
    simp only [] at h
    split at h
    · exact absurd h (by simp)
    · split at h
      · rename_i r' hrest
        have h1 : r' = r := congrArg Prod.snd (Option.some.inj h)
        have h2 : r'.length + 1 = (r0.dropWhile Char.isDigit).length := by
          rw [hrest]; rfl
        have h3 := dropWhile_length_le Char.isDigit r0
        subst h1
        simp only [List.length_cons]
        omega
      · exact absurd h (by simp)
  · exact absurd h (by simp)

theorem consumePO_length {s r : Str} {k : Nat}
    (h : consumePO s = some (k, r)) : r.length < s.length := by
  unfold consumePO at h
  split at h
  · rename_i r0
    split at h
    · rename_i k' r' hcore
      have h1 : r' = r := congrArg Prod.snd (Option.some.inj h)
      subst h1
      have := consumePOCore_length hcore
      simp only [List.length_cons]
      omega
    · exact absurd h (by simp)
  · exact consumePOCore_length h

/-- The backtracking matcher (first-result semantics of Python `re`),
structural in a fuel argument.  Every recursive call strictly decreases
`s.length + toks.length` (for the joiner's page-break unit this is
`consumePO_length`), so the fuel `s.length + toks.length + 1` supplied by
the `reMatch` wrapper below always suffices.  The `.wild` token models
`.*?` compiled without `re.DOTALL`, so it never consumes a newline. -/
def reMatchF : Nat → List Tok → Str → Option Char → Option Nat
  | 0, _, _, _ => none
  | _ + 1, [], _, _ => some 0
  | fuel + 1, .lit c :: ts, s, _ =>
    match s with
    | [] => none
    | x :: s' =>
      if x.toLower = c.toLower then (reMatchF fuel ts s' (some x)).map (· + 1)
      else none
  | fuel + 1, .wb :: ts, s, prev =>
    if atBoundary prev s.head? then reMatchF fuel ts s prev else none
  | fuel + 1, .opt cs :: ts, s, prev =>
    match s with
    | [] => reMatchF fuel ts [] prev
    | x :: s' =>
      if x ∈ cs then
        ((reMatchF fuel ts s' (some x)).map (· + 1)).orElse
          (fun _ => reMatchF fuel ts (x :: s') prev)
      else reMatchF fuel ts (x :: s') prev
  | fuel + 1, .wild :: ts, s, prev =>
    (reMatchF fuel ts s prev).orElse (fun _ =>
      match s with
      | [] => none
      | x :: s' =>
        if x = '\n' then none
        else (reMatchF fuel (.wild :: ts) s' (some x)).map (· + 1))
  | fuel + 1, .joiner :: ts, s, prev =>
    (match s with
     | ' ' :: s' => (reMatchF fuel (.joiner :: ts) s' (some ' ')).map (· + 1)
     | _ => none).orElse (fun _ =>
      (match consumePO s with
       | some (k, s') => (reMatchF fuel (.joiner :: ts) s' (some '>')).map (· + k)
       | none => none).orElse (fun _ => reMatchF fuel ts s prev))

def reMatch (toks : List Tok) (s : Str) (prev : Option Char) : Option Nat :=
  reMatchF (s.length + toks.length + 1) toks s prev

/-- `pattern.search(subject)`: try each start position from the left;
return the span `(start, end)` of the first match. -/
def reSearchAux (toks : List Tok) (s : Str) (prev : Option Char) (i : Nat) :
    Option (Nat × Nat) :=
  ((reMatch toks s prev).map (fun n => (i, i + n))).orElse (fun _ =>
    match s with
    | [] => none
    | x :: s' => reSearchAux toks s' (some x) (i + 1))

def reSearch (toks : List Tok) (s : Str) : Option (Nat × Nat) :=
  reSearchAux toks s none 0

/-! ## Tree model

The drivers walk direct children of `<p>` paragraph elements, reading only
the paragraph's head text, a child's head text, and a child's tail text;
they never descend below the first child level.  A `Child` therefore keeps
its tag, head text, tail text, the `n` attribute (used to locate `pb` page
breaks), the per-page `created_anchors` record (the label under which the
placement driver registered a freshly created anchor, `none` for every
pre-existing node), and `inner`, a summary of nested content (e.g. the note
text inside an inserted `app`), which the sibling walks never inspect. -/

structure Child where
  tag : Str
  text : Str
  tail : Str
  attrN : Str
  createdFor : Option Str
  inner : Str
deriving DecidableEq, Repr

structure Para where
  text : Str
  children : List Child
deriving DecidableEq, Repr

abbrev Doc := List Para

/-- `ENCLOSING_TAGS = ['hi', 'foreign', 'add', 'foreign_hi', 'add_foreign_hi']`. -/
def ENCLOSING_TAGS : List Str :=
  [['h', 'i'], ['f', 'o', 'r', 'e', 'i', 'g', 'n'], ['a', 'd', 'd'],
   ['f', 'o', 'r', 'e', 'i', 'g', 'n', '_', 'h', 'i'],
   ['a', 'd', 'd', '_', 'f', 'o', 'r', 'e', 'i', 'g', 'n', '_', 'h', 'i']]

def pbTag : Str := ['p', 'b']
def anchorTag : Str := ['a', 'n', 'c', 'h', 'o', 'r']
def appTag : Str := ['a', 'p', 'p']

/-- A compiled matcher as the drivers use it: subject text in, match span
out (`m.start(), m.end()`). -/
abbrev Finder := Str → Option (Nat × Nat)

/-- First `pb` child with the given `n` attribute, in document order
(the xpath `//text/*[self::body or self::back]/div[1]/p/pb[@n="N"]`,
first hit). -/
def findPbAux (n : Str) : Doc → Nat → Option (Nat × Nat)
  | [], _ => none
  | para :: rest, p =>
    match para.children.findIdx? (fun ch => ch.tag == pbTag && ch.attrN == n) with
    | some i => some (p, i)
    | none => findPbAux n rest (p + 1)

def findPb (doc : Doc) (n : Str) : Option (Nat × Nat) := findPbAux n doc 0

/-! ## Splice primitives -/

/-- Split a text field at a match span into `before | matched | after`
(`t[:s]`, `t[s:e]`, `t[e:]`). -/
def spliceParts (t : Str) (s e : Nat) : Str × Str × Str :=
  (t.take s, (t.drop s).take (e - s), t.drop e)

/-- `add_critical`'s trailing-punctuation adjustment: when the matched text
ends in punctuation that the raw lemma label does not end in, the last
character moves from the matched part to the after part. -/
def criticalAdjust (rawLabel matched after : Str) : Str × Str :=
  match matched.getLast? with
  | some c =>
    if c ∈ ['.', ',', ':', ';', '?', '!'] ∧
       ¬ ((pyStrip rawLabel).getLast? = some c) then
      (matched.dropLast, c :: after)
    else (matched, after)
  | none => (matched, after)

/-- The anchor element created by `add_comment` (tag `anchor`, recorded in
`created_anchors` under its label). -/
def mkAnchor (label tl : Str) : Child :=
  ⟨anchorTag, [], tl, [], some label, []⟩

/-- The `app` element created by `add_comment` for a gloss comment (with
its nested `note`/`label` content summarised in `inner`). -/
def mkGlossApp (note tl : Str) : Child :=
  ⟨appTag, [], tl, [], none, note⟩

/-! ## Comments driver: `add_comments` -/

/-- Scan cursor: current paragraph index and current child index
(`none` models `current is None`). -/
structure CState where
  p : Nat
  c : Option Nat
deriving DecidableEq, Repr

/-- A text field examined by a scan. -/
inductive Fld where
  | ptext (p : Nat)
  | ctext (p i : Nat)
  | ctail (p i : Nat)
deriving DecidableEq, Repr

/-- Where `add_comment` splices. -/
inductive CommentLoc where
  | head (p : Nat)
  | encl (p i : Nat)
  | tail (p i : Nat)
deriving DecidableEq, Repr

inductive CStep where
  | place (loc : CommentLoc) (s e : Nat)
  | stop
  | next (st : CState)
deriving DecidableEq, Repr

/-- One iteration of the `while current_p is not None and not
found_and_placed` loop of `add_comments`, together with the list of text
fields it examined.  Checks 1–4 and the cursor advance follow the source
line by line; the self-match suppression guards of checks 2 and 3 drop a
match that starts at offset 0 of a field owned by a node that
`created_anchors` records under the identical label. -/
def commentStep (doc : Doc) (find : Finder) (label : Str) (st : CState) :
    List Fld × CStep :=
  match doc[st.p]? with
  | none => ([], .stop)
  | some para =>
    match st.c with
    | some i =>
      match para.children[i]? with
      | none => ([], .stop)
      | some ch =>
        let check1 : Bool := i == 0 && para.text != []
        let v1 : List Fld := if check1 then [.ptext st.p] else []
        match (if check1 then find (strip_accents para.text) else none) with
        | some (s, e) => (v1, .place (.head st.p) s e)
        | none =>
          let check2 : Bool := decide (ch.tag ∈ ENCLOSING_TAGS)
          let v2 : List Fld := if check2 then [.ctext st.p i] else []
          let m2 : Option (Nat × Nat) :=
            match (if check2 then find (strip_accents ch.text) else none) with
            | some (s, e) =>
              if ch.createdFor = some label ∧ s = 0 then none else some (s, e)
            | none => none
          match m2 with
          | some (s, e) => (v1 ++ v2, .place (.encl st.p i) s e)
          | none =>
            let v3 : List Fld := [.ctail st.p i]
            let m3 : Option (Nat × Nat) :=
              match find (strip_accents ch.tail) with
              | some (s, e) =>
                if ch.createdFor = some label ∧ s = 0 then none else some (s, e)
              | none => none
            match m3 with
            | some (s, e) => (v1 ++ v2 ++ v3, .place (.tail st.p i) s e)
            | none =>
              let vs := v1 ++ v2 ++ v3
              match para.children[i + 1]? with
              | some ch' =>
                if ch'.tag = pbTag then (vs, .stop)
                else (vs, .next ⟨st.p, some (i + 1)⟩)
              | none => (vs, .next ⟨st.p + 1, none⟩)
    | none =>
      let v : List Fld := [.ptext st.p]
      match find (strip_accents para.text) with
      | some (s, e) => (v, .place (.head st.p) s e)
      | none =>
        match para.children[0]? with
        | some ch0 =>
          if ch0.tag = pbTag then (v, .stop)
          else (v, .next ⟨st.p, some 0⟩)
        | none => (v, .next ⟨st.p + 1, none⟩)

inductive ScanRes where
  | placed (loc : CommentLoc) (s e : Nat)
  | notFound
  | out
deriving DecidableEq, Repr

/-- Run the scan loop with fuel, collecting every examined field. -/
def commentScanRun (doc : Doc) (find : Finder) (label : Str) :
    Nat → CState → ScanRes × List Fld
  | 0, _ => (.out, [])
  | fuel + 1, st =>
    match commentStep doc find label st with
    | (vs, .place loc s e) => (.placed loc s e, vs)
    | (vs, .stop) => (.notFound, vs)
    | (vs, .next st') =>
      let r := commentScanRun doc find label fuel st'
      (r.1, vs ++ r.2)

/-- Fuel measure: the scan strictly descends along this weight. -/
def paraWeight (q : Para) : Nat := q.children.length + 3

def tailWeight (doc : Doc) (p : Nat) : Nat := ((doc.drop p).map paraWeight).sum

def cMeasure (doc : Doc) (st : CState) : Nat :=
  match doc[st.p]? with
  | none => 0
  | some q =>
    match st.c with
    | none => q.children.length + 2 + tailWeight doc (st.p + 1)
    | some i => (q.children.length - i) + 1 + tailWeight doc (st.p + 1)

/-- `add_comment` for a gloss comment: splice at the located match.  In the
tail case the anchor and `app` are inserted directly after the owning
child; in the paragraph-head case they become the first children; in the
enclosing-tag case the owner is cloned into `before`/`after` siblings
(created only when nonempty), the anchor is inserted before the owner via
`addprevious`, and each `addnext` moves the owner's tail text onto the
element it inserts — so the original tail ends up on the `after` clone
when one is created, and otherwise on the `app`. -/
def applyCommentPlace (doc : Doc) (label note : Str) (loc : CommentLoc)
    (s e : Nat) : Doc :=
  match loc with
  | .head p =>
    match doc[p]? with
    | none => doc
    | some para =>
      let parts := spliceParts para.text s e
      doc.set p ⟨parts.1,
        mkAnchor label parts.2.1 :: mkGlossApp note parts.2.2 :: para.children⟩
  | .tail p i =>
    match doc[p]? with
    | none => doc
    | some para =>
      match para.children[i]? with
      | none => doc
      | some ch =>
        let parts := spliceParts ch.tail s e
        let cs := para.children.set i { ch with tail := parts.1 }
        let cs := cs.take (i + 1) ++
          [mkAnchor label parts.2.1, mkGlossApp note parts.2.2] ++
          cs.drop (i + 1)
        doc.set p { para with children := cs }
  | .encl p i =>
    match doc[p]? with
    | none => doc
    | some para =>
      match para.children[i]? with
      | none => doc
      | some ch =>
        let parts := spliceParts ch.text s e
        -- `addnext` moves the owner's tail onto the inserted sibling: the
        -- `after` clone takes it when created, otherwise the `app` does.
        let block :=
          (if parts.1 ≠ [] then
            [Child.mk ch.tag parts.1 [] ch.attrN none []] else []) ++
          [⟨anchorTag, [], [], [], some label, []⟩] ++
          [{ ch with text := parts.2.1, tail := [] }] ++
          [⟨appTag, [], (if parts.2.2 ≠ [] then [] else ch.tail), [],
            none, note⟩] ++
          (if parts.2.2 ≠ [] then
            [Child.mk ch.tag parts.2.2 ch.tail ch.attrN none []] else [])
        doc.set p { para with
          children := para.children.take i ++ block ++ para.children.drop (i + 1) }

/-- How many children a placement adds before a later position in the same
paragraph (to track the page-break element's identity across insertions). -/
def placeDelta (doc : Doc) (loc : CommentLoc) (s e : Nat) : Nat :=
  match loc with
  | .head _ => 2
  | .tail _ _ => 2
  | .encl p i =>
    match doc[p]? with
    | none => 2
    | some para =>
      match para.children[i]? with
      | none => 2
      | some ch =>
        let parts := spliceParts ch.text s e
        2 + (if parts.1 ≠ [] then 1 else 0) + (if parts.2.2 ≠ [] then 1 else 0)

/-- Track where the page-break element moved after a placement. -/
def shiftPb (doc : Doc) (loc : CommentLoc) (s e : Nat) (pb : Nat × Nat) :
    Nat × Nat :=
  match loc with
  | .head p => if p = pb.1 then (pb.1, pb.2 + 2) else pb
  | .tail p i => if p = pb.1 ∧ i < pb.2 then (pb.1, pb.2 + 2) else pb
  | .encl p i =>
    if p = pb.1 ∧ i < pb.2 then (pb.1, pb.2 + placeDelta doc loc s e) else pb

/-! ## Comment ordering: `get_sort_key` and the per-page driver -/

structure CommentAnn where
  num : Option Str
  label : Str
  note : Str
  idx : Nat
deriving DecidableEq, Repr

/-- `re.search(r'\d+', s)`: the first maximal digit run. -/
def firstDigitRun : Str → Option Str
  | [] => none
  | c :: r =>
    if c.isDigit then some (c :: r.takeWhile Char.isDigit) else firstDigitRun r

def digitsToNat (ds : Str) : Nat :=
  ds.foldl (fun a c => a * 10 + (c.toNat - 48)) 0

/-- The ordinal component of `get_sort_key`: the first digit run of the
number field, or the sentinel `99999` when the field is missing
(`TypeError`) or holds no digits (`AttributeError`). -/
def parseOrdinal : Option Str → Nat
  | none => 99999
  | some n =>
    match firstDigitRun n with
    | none => 99999
    | some ds => digitsToNat ds

/-- `get_sort_key` as a ≤ relation: ordinal ascending, then label length
descending, then original index ascending. -/
def keyLe (a b : CommentAnn) : Prop :=
  parseOrdinal a.num < parseOrdinal b.num ∨
  (parseOrdinal a.num = parseOrdinal b.num ∧
    (b.label.length < a.label.length ∨
     (b.label.length = a.label.length ∧ a.idx ≤ b.idx)))

/-- Strict version of `keyLe` (used for a stable sort, as Python's
`sorted`). -/
def keyLt (a b : CommentAnn) : Prop :=
  parseOrdinal a.num < parseOrdinal b.num ∨
  (parseOrdinal a.num = parseOrdinal b.num ∧
    (b.label.length < a.label.length ∨
     (b.label.length = a.label.length ∧ a.idx < b.idx)))

instance (a b : CommentAnn) : Decidable (keyLe a b) := by
  unfold keyLe; infer_instance

instance (a b : CommentAnn) : Decidable (keyLt a b) := by
  unfold keyLt; infer_instance

/-- Stable insertion: `x` goes before the first element not strictly below
it. -/
def insSorted (x : CommentAnn) : List CommentAnn → List CommentAnn
  | [] => [x]
  | y :: ys => if keyLt y x then y :: insSorted x ys else x :: y :: ys

/-- `sorted(comments[pe_number], key=get_sort_key)`. -/
def sortComments : List CommentAnn → List CommentAnn
  | [] => []
  | x :: xs => insSorted x (sortComments xs)

/-- Per-annotation processing of `add_comments` within one page: scan from
the page anchor; on a match, splice and record the new anchor; otherwise
count a failure and, when a comment file is configured, emit a best-effort
fragment (modelled as the label/note pair of `create_dud_comment`). -/
def add_comments_go (commentFile : Bool) :
    Doc → Nat × Nat → List CommentAnn → Nat → List (Str × Str) →
    Doc × Nat × List (Str × Str)
  | doc, _, [], fails, duds => (doc, fails, duds)
  | doc, pb, a :: rest, fails, duds =>
    let find := reSearch (create_label_regex a.label)
    let st0 : CState := ⟨pb.1, some pb.2⟩
    match commentScanRun doc find a.label (cMeasure doc st0 + 1) st0 with
    | (.placed loc s e, _) =>
      add_comments_go commentFile (applyCommentPlace doc a.label a.note loc s e)
        (shiftPb doc loc s e pb) rest fails duds
    | _ =>
      add_comments_go commentFile doc pb rest (fails + 1)
        (if commentFile then duds ++ [(a.label, a.note)] else duds)

/-- One page of `add_comments`: locate the page break (on failure the page
is skipped, as in the source), sort the page's annotations with
`get_sort_key`, and place them in order. -/
def add_comments_page (commentFile : Bool) (doc : Doc) (pageN : Str)
    (cs : List CommentAnn) : Doc × Nat × List (Str × Str) :=
  match findPb doc pageN with
  | none => (doc, 0, [])
  | some pb0 => add_comments_go commentFile doc pb0 (sortComments cs) 0 []

/-! ## Critical apparatus driver: `add_critical_apparatus` / `add_critical` -/

/-- One apparatus entry after preformatting: ordinal, lemma witness
attribution, the raw lemma label (`lem[0][1]`, used both for the search
pattern and the punctuation adjustment), and the readings. -/
structure CritEntry where
  num : Nat
  lemWit : Str
  lemLabel : Str
  rdgs : List (Str × Str)
deriving DecidableEq, Repr

/-- Scan-local state of one entry's search: `current_parent` (paragraph
index), `current` (paragraph and child index; meaningful while
`look_in_tail`), and the `look_in_tail` flag. -/
structure KState where
  parentP : Nat
  curPC : Nat × Nat
  look : Bool
deriving DecidableEq, Repr

inductive CritLoc where
  | tail (p i : Nat)
  | head (p : Nat)
deriving DecidableEq, Repr

inductive KStep where
  | place (loc : CritLoc) (s e : Nat)
  | stop (look : Bool)
  | next (st : KState)
deriving DecidableEq, Repr

/-- One iteration of the `while search and current_parent is not None`
loop of `add_critical_apparatus`, with the fields it examined.  In tail
mode the tail of `current` is searched and the cursor advances along
siblings (stopping at a `pb`); when siblings run out, the scan falls back
to head-text mode on the paragraph after `current_parent` — which is the
possibly stale `start_current_parent`, exactly as in the source. -/
def critStep (doc : Doc) (find : Finder) (st : KState) : List Fld × KStep :=
  match doc[st.parentP]? with
  | none => ([], .stop st.look)
  | some para =>
    if st.look then
      match doc[st.curPC.1]? with
      | none => ([], .stop st.look)
      | some cpara =>
        match cpara.children[st.curPC.2]? with
        | none => ([], .stop st.look)
        | some ch =>
          let v : List Fld := [.ctail st.curPC.1 st.curPC.2]
          match find (strip_accents ch.tail) with
          | some (s, e) => (v, .place (.tail st.curPC.1 st.curPC.2) s e)
          | none =>
            match cpara.children[st.curPC.2 + 1]? with
            | some ch' =>
              if ch'.tag = pbTag then (v, .stop true)
              else (v, .next ⟨st.parentP, (st.curPC.1, st.curPC.2 + 1), true⟩)
            | none => (v, .next ⟨st.parentP + 1, st.curPC, false⟩)
    else
      let v : List Fld := [.ptext st.parentP]
      match find (strip_accents para.text) with
      | some (s, e) => (v, .place (.head st.parentP) s e)
      | none =>
        match para.children[0]? with
        | some ch0 =>
          if ch0.tag = pbTag then (v, .stop true)
          else (v, .next ⟨st.parentP, (st.parentP, 0), true⟩)
        | none => (v, .next ⟨st.parentP + 1, st.curPC, false⟩)

inductive KRes where
  | placed (loc : CritLoc) (s e : Nat) (look : Bool)
  | notFound (look : Bool)
  | out
deriving DecidableEq, Repr

def critScanRun (doc : Doc) (find : Finder) : Nat → KState → KRes × List Fld
  | 0, _ => (.out, [])
  | fuel + 1, st =>
    match critStep doc find st with
    | (vs, .place loc s e) => (.placed loc s e st.look, vs)
    | (vs, .stop lk) => (.notFound lk, vs)
    | (vs, .next st') =>
      let r := critScanRun doc find fuel st'
      (r.1, vs ++ r.2)

def critMeasure (doc : Doc) (st : KState) : Nat :=
  match doc[st.parentP]? with
  | none => 0
  | some _ =>
    if st.look then
      match doc[st.curPC.1]? with
      | none => 0
      | some cpara =>
        (cpara.children.length - st.curPC.2) + 1 + tailWeight doc (st.parentP + 1)
    else tailWeight doc st.parentP

/-- The `app` element spliced by `add_critical` (its nested `lem`/`rdg`
content summarised by the adjusted matched text in `inner`). -/
def mkCritApp (lemText tl : Str) : Child := ⟨appTag, [], tl, [], none, lemText⟩

/-- `add_critical`: splice the apparatus at the located match; returns the
mutated document and the location of the inserted `app` (the new
`current`). -/
def applyCriticalPlace (doc : Doc) (rawLabel : Str) (loc : CritLoc)
    (s e : Nat) : Doc × (Nat × Nat) :=
  match loc with
  | .tail p i =>
    match doc[p]? with
    | none => (doc, (p, i))
    | some para =>
      match para.children[i]? with
      | none => (doc, (p, i))
      | some ch =>
        let parts := spliceParts ch.tail s e
        let adj := criticalAdjust rawLabel parts.2.1 parts.2.2
        let cs := para.children.set i { ch with tail := parts.1 }
        let cs := cs.take (i + 1) ++ [mkCritApp adj.1 adj.2] ++ cs.drop (i + 1)
        (doc.set p { para with children := cs }, (p, i + 1))
  | .head p =>
    match doc[p]? with
    | none => (doc, (p, 0))
    | some para =>
      let parts := spliceParts para.text s e
      let adj := criticalAdjust rawLabel parts.2.1 parts.2.2
      (doc.set p ⟨parts.1, mkCritApp adj.1 adj.2 :: para.children⟩, (p, 0))

/-- State carried across entries of one page: `current`/`saved_current`
(they coincide at entry boundaries), `start_current_parent`,
`look_in_tail`, `prev_number`. -/
structure CritCarry where
  cur : Nat × Nat
  startParent : Nat
  look : Bool
  prevNum : Option Nat
deriving DecidableEq, Repr

/-- The ordinal-drop check at the head of the entry loop: when the new
entry's number is below the previous one, re-locate the page break and
restart from it (`saved_current = current = tei_tree.xpath(...)[0]` etc.);
`none` models the `IndexError` of a failing re-location. -/
def critEntryStart (doc : Doc) (pageN : Str) (st : CritCarry)
    (en : CritEntry) : Option CritCarry :=
  match st.prevNum with
  | some p =>
    if en.num < p then
      match findPb doc pageN with
      | some loc =>
        some ⟨loc, loc.1, true, st.prevNum⟩
      | none => none
    else some st
  | none => some st

/-- Process one apparatus entry: the ordinal-drop reset, the scan, and
either the splice (success: `current` becomes the inserted `app`, and a
head placement also updates `start_current_parent`) or the failure path
(`current` restored to `saved_current`, the entry recorded).  The middle
`Nat` of the result is the failure increment. -/
def critEntryRun (doc : Doc) (pageN : Str) (st : CritCarry) (en : CritEntry) :
    Option (Doc × CritCarry × Nat) :=
  match critEntryStart doc pageN st en with
  | none => none
  | some st1 =>
    let st2 : CritCarry := { st1 with prevNum := some en.num }
    let find := reSearch (create_label_regex en.lemLabel)
    let k0 : KState := ⟨st2.startParent, st2.cur, st2.look⟩
    match critScanRun doc find (critMeasure doc k0 + 1) k0 with
    | (.placed loc s e lk, _) =>
      let res := applyCriticalPlace doc en.lemLabel loc s e
      let startP' := match loc with
        | .head p => p
        | .tail _ _ => st2.startParent
      some (res.1, ⟨res.2, startP', lk, some en.num⟩, 0)
    | (.notFound lk, _) => some (doc, { st2 with look := lk }, 1)
    | (.out, _) => some (doc, st2, 1)

def add_critical_page_go (apparatusFile : Bool) (pageN : Str) :
    Doc → CritCarry → List CritEntry → Nat → List CritEntry →
    List CritEntry → Option (Doc × Nat × List CritEntry × List CritEntry)
  | doc, _, [], fails, failed, duds => some (doc, fails, failed, duds)
  | doc, st, en :: rest, fails, failed, duds =>
    match critEntryRun doc pageN st en with
    | none => none
    | some (doc', st', failInc) =>
      let failed' := if failInc = 1 then failed ++ [en] else failed
      let duds' := if failInc = 1 ∧ apparatusFile then duds ++ [en] else duds
      add_critical_page_go apparatusFile pageN doc' st' rest
        (fails + failInc) failed' duds'

/-- One page of `add_critical_apparatus`: locate the page break (`none`
models the `IndexError` when it is absent) and process the page's entries
in order.  Returns the mutated document, the failure count, the `failed`
record list, and the fragments written to the apparatus file when one is
configured. -/
def add_critical_apparatus_page (apparatusFile : Bool) (doc : Doc)
    (pageN : Str) (entries : List CritEntry) :
    Option (Doc × Nat × List CritEntry × List CritEntry) :=
  match findPb doc pageN with
  | none => none
  | some loc =>
    add_critical_page_go apparatusFile pageN doc ⟨loc, loc.1, true, none⟩
      entries 0 [] []

/-! ## Witness reconciler: `parse_wits` and `extract_witnesses_right`

The per-document sigla table `edition_ids[doc_num]` is threaded as an
association list `eds`, and `default_edition_ids[doc_num]['DJAK03']` as
`defaultId`.  A reading segment `(style, text)` carries `style ∈ {None,
'italic'}` (the only two values the extraction stage produces), modelled
as a Bool (`true` = italic). -/

/-- `re.split('[,a]', s)` (split on a comma or on the letter `a`),
empty pieces kept. -/
def splitCommaA : Str → List Str
  | [] => [[]]
  | c :: r =>
    match splitCommaA r with
    | [] => [[]]
    | t :: ts =>
      if c = ',' ∨ c = 'a' then [] :: t :: ts else (c :: t) :: ts

/-- Python `s.strip(x)`: drop the character from both ends. -/
def stripChar (x : Char) (s : Str) : Str :=
  ((s.dropWhile (· = x)).reverse.dropWhile (· = x)).reverse

/-- `parse_wits(wit_str, doc_num, position, add_default)`. -/
def parse_wits (eds : List (Str × Str)) (witStr : Str) (position : Char)
    (addDefault : Bool) : Str :=
  let base : List Str := if addDefault then [('#' :: ['D', 'J', 'A', 'K', '0', '3'])] else []
  let pieces := (splitCommaA witStr).map (fun w => stripChar ';' (pyStrip w))
  let parsed := pieces.filterMap (fun w =>
    if w = [] then none
    else
      match eds.lookup w with
      | some ed => some ('#' :: ed)
      | none =>
        some (['[', 't', 'b', 'd', '_', position, ':', ' '] ++ w ++ [']']))
  List.intercalate [' '] (base ++ parsed)

/-- Strict alternation of segment styles, starting after `prev`
(`next_style_dict = {None: 'italic', 'italic': None}`). -/
def alternating : Bool → List (Bool × Str) → Bool
  | _, [] => true
  | prev, (st, _) :: r => (st = !prev) && alternating st r

/-- Consecutive (text, wits) pairs of a text-first alternation
(`zip(after[:-1:2], after[1::2])`). -/
def pairTextFirst : List (Bool × Str) → List (Str × Str)
  | (_, t) :: (_, w) :: r => (t, w) :: pairTextFirst r
  | _ => []

/-- Consecutive (text, wits) pairs of a sigla-first alternation
(`zip(after[1::2], after[:-1:2])`). -/
def pairWitsFirst : List (Bool × Str) → List (Str × Str)
  | (_, w) :: (_, t) :: r => (t, w) :: pairWitsFirst r
  | _ => []

/-- The `'unparsed'` fallback: `' | '.join(piece[1].strip() for piece)`. -/
def unparsedJoin (after : List (Bool × Str)) : Str :=
  List.intercalate [' ', '|', ' '] (after.map (fun p => pyStrip p.2))

/-- `extract_witnesses_right(after, doc_num, witnesses_file)`.  `none`
models the `IndexError` the Python function raises on an empty segment
list (`prev_style = after[0][0]`). -/
def extract_witnesses_right (eds : List (Str × Str)) (defaultId : Str)
    (after : List (Bool × Str)) : Option (List (Str × Str)) :=
  match after with
  | [] => none
  | [(st, t)] =>
    if st then some [(['t', 'b', 'd'], t)] else some [('#' :: defaultId, t)]
  | (st0, t0) :: r1 :: rest0 =>
    let rest := r1 :: rest0
    if ¬ (alternating st0 rest = true) then
      some [(['u', 'n', 'p', 'a', 'r', 's', 'e', 'd'], unparsedJoin ((st0, t0) :: rest))]
    else if ((( st0, t0) :: rest).filter (fun p => p.1 = false)).length ≠
            (((st0, t0) :: rest).filter (fun p => p.1 = true)).length then
      some [(['u', 'n', 'p', 'a', 'r', 's', 'e', 'd'], unparsedJoin ((st0, t0) :: rest))]
    else if st0 = false then
      some ((pairTextFirst ((st0, t0) :: rest)).map
        (fun p => (parse_wits eds p.2 'a' false, p.1)))
    else
      some ((pairWitsFirst ((st0, t0) :: rest)).map
        (fun p => (parse_wits eds p.2 'b' false, p.1)))

/-! ## Document-order positions (for scope statements) -/

/-- Number of text slots a paragraph occupies in document order: its head
text, then for each child the child's head slot and its tail slot. -/
def paraSlots (q : Para) : Nat := 1 + 2 * q.children.length

def basePos (doc : Doc) (p : Nat) : Nat := ((doc.take p).map paraSlots).sum

/-- Linear document-order position of a text field. -/
def fldPos (doc : Doc) : Fld → Nat
  | .ptext p => basePos doc p
  | .ctext p i => basePos doc p + 1 + 2 * i
  | .ctail p i => basePos doc p + 2 + 2 * i

/-- Linear position of a child node (its head-text slot). -/
def childPos (doc : Doc) (p i : Nat) : Nat := basePos doc p + 1 + 2 * i

/-- Position of a comment-scan state. -/
def statePos (doc : Doc) (st : CState) : Nat :=
  match st.c with
  | none => basePos doc st.p
  | some i => childPos doc st.p i

/-- Position of a critical-scan state. -/
def kStatePos (doc : Doc) (st : KState) : Nat :=
  if st.look then childPos doc st.curPC.1 st.curPC.2 else basePos doc st.parentP

/-! # Theorems -/

theorem criticalAdjust_append (rawLabel matched after : Str) :
    (criticalAdjust rawLabel matched after).1 ++
      (criticalAdjust rawLabel matched after).2 = matched ++ after := by
  unfold criticalAdjust
  split
  · rename_i c hlast
    split
    · simp only []
      have hne : matched ≠ [] := by
        intro h; rw [h] at hlast; simp at hlast
      have hg : matched.getLast hne = c := by
        have hq := List.getLast?_eq_getLast matched hne
        rw [hq] at hlast
        exact Option.some.inj hlast
      calc matched.dropLast ++ (c :: after)
          = (matched.dropLast ++ [c]) ++ after := by simp
        _ = (matched.dropLast ++ [matched.getLast hne]) ++ after := by rw [hg]
        _ = matched ++ after := by rw [List.dropLast_append_getLast hne]
    · rfl
  · rfl

theorem spliceParts_append {t : Str} {s e : Nat} (h : s ≤ e) :
    (spliceParts t s e).1 ++ (spliceParts t s e).2.1 ++ (spliceParts t s e).2.2 = t := by
  unfold spliceParts
  simp only []
  have hd : t.drop e = (t.drop s).drop (e - s) := by
    rw [List.drop_drop]
    congr 1
    omega
  rw [hd, List.append_assoc, List.take_append_drop, List.take_append_drop]

/-- C7: Every splice splits the owning text field into before, matched and
after parts whose concatenation equals the original field text; the
critical splice's trailing-punctuation adjustment only moves a character
between the matched and after parts, so the character total across the
mutated nodes is also preserved. -/
theorem c7_splice_preserves_text (t rawLabel : Str) (s e : Nat) (h : s ≤ e) :
    ((spliceParts t s e).1 ++ (spliceParts t s e).2.1 ++ (spliceParts t s e).2.2 = t) ∧
    ((spliceParts t s e).1 ++
      (criticalAdjust rawLabel (spliceParts t s e).2.1 (spliceParts t s e).2.2).1 ++
      (criticalAdjust rawLabel (spliceParts t s e).2.1 (spliceParts t s e).2.2).2 = t) ∧
    ((spliceParts t s e).1.length + (spliceParts t s e).2.1.length +
      (spliceParts t s e).2.2.length = t.length) := by
  have h1 := @spliceParts_append t s e h
  refine ⟨h1, ?_, ?_⟩
  · rw [List.append_assoc, criticalAdjust_append, ← List.append_assoc, h1]
  · have h2 := congrArg List.length h1
    simp only [List.length_append] at h2
    omega

theorem c7_splice_preserves_text_witness :
    (2 : Nat) ≤ 5 ∧
    ((spliceParts ['l', 'u', 'x', ' ', 'd', 'e', 'i'] 2 5).1 ++
      (spliceParts ['l', 'u', 'x', ' ', 'd', 'e', 'i'] 2 5).2.1 ++
      (spliceParts ['l', 'u', 'x', ' ', 'd', 'e', 'i'] 2 5).2.2 =
      ['l', 'u', 'x', ' ', 'd', 'e', 'i']) :=
  ⟨by norm_num,
   (c7_splice_preserves_text ['l', 'u', 'x', ' ', 'd', 'e', 'i'] ['l', 'u', 'x']
     2 5 (by norm_num)).1⟩

theorem keyLt_keyLe {a b : CommentAnn} (h : keyLt a b) : keyLe a b := by
  unfold keyLt at h; unfold keyLe; omega

theorem not_keyLt_keyLe {a b : CommentAnn} (h : ¬ keyLt a b) : keyLe b a := by
  unfold keyLt at h; unfold keyLe; omega

theorem keyLe_trans {a b c : CommentAnn} (h1 : keyLe a b) (h2 : keyLe b c) :
    keyLe a c := by
  unfold keyLe at *; omega

theorem insSorted_perm (x : CommentAnn) (l : List CommentAnn) :
    List.Perm (insSorted x l) (x :: l) := by
  induction l with
  | nil => simp [insSorted]
  | cons y ys ih =>
    rw [insSorted]
    split
    · exact (List.Perm.cons y ih).trans (List.Perm.swap x y ys)
    · exact List.Perm.refl _

theorem sortComments_perm (cs : List CommentAnn) : List.Perm (sortComments cs) cs := by
  induction cs with
  | nil => simp [sortComments]
  | cons x xs ih =>
    rw [sortComments]
    exact (insSorted_perm _ _).trans (List.Perm.cons x ih)

theorem insSorted_pairwise {x : CommentAnn} {l : List CommentAnn}
    (h : l.Pairwise keyLe) : (insSorted x l).Pairwise keyLe := by
  induction l with
  | nil => simp [insSorted]
  | cons y ys ih =>
    rw [insSorted]
    rcases List.pairwise_cons.mp h with ⟨hy, hys⟩
    split
    · rename_i hlt
      refine List.pairwise_cons.mpr ⟨?_, ih hys⟩
      intro z hz
      have hz' := (insSorted_perm x ys).mem_iff.mp hz
      rcases List.mem_cons.mp hz' with rfl | hz''
      · exact keyLt_keyLe hlt
      · exact hy z hz''
    · rename_i hnlt
      refine List.pairwise_cons.mpr ⟨?_, h⟩
      intro z hz
      rcases List.mem_cons.mp hz with rfl | hz'
      · exact not_keyLt_keyLe hnlt
      · exact keyLe_trans (not_keyLt_keyLe hnlt) (hy z hz')

/-- The ordinal component of the ordering key as the ORIGINAL claim words
it: the first digit run of the LABEL text, `none` when the label holds no
digits.  Stated from the claim, for comparison with the source's
`get_sort_key` (which reads the number field). -/
def labelOrdinal (a : CommentAnn) : Option Nat :=
  (firstDigitRun a.label).map digitsToNat

/-- Ascending order on parsed ordinals with missing/non-numeric sorting
last, as the original claim words it. -/
def ordLastLt : Option Nat → Option Nat → Prop
  | some x, some y => x < y
  | some _, none => True
  | none, _ => False

instance : ∀ a b : Option Nat, Decidable (ordLastLt a b)
  | some _, some _ => inferInstanceAs (Decidable (_ < _))
  | some _, none => .isTrue trivial
  | none, some _ => .isFalse (fun h => h)
  | none, none => .isFalse (fun h => h)

/-- The strict must-precede relation induced by the ORIGINAL claim's key:
label-parsed ordinal ascending (missing/non-numeric last), then label
length descending, then input order. -/
def specKeyLt (a b : CommentAnn) : Prop :=
  ordLastLt (labelOrdinal a) (labelOrdinal b) ∨
  (labelOrdinal a = labelOrdinal b ∧
    (b.label.length < a.label.length ∨
     (b.label.length = a.label.length ∧ a.idx < b.idx)))

instance (a b : CommentAnn) : Decidable (specKeyLt a b) := by
  unfold specKeyLt; infer_instance

def c5A : CommentAnn := ⟨some ['1'], ['z', 'z'], [], 0⟩

def c5B : CommentAnn := ⟨some ['2'], ['1', ' ', 'a'], [], 1⟩

/-- C5 counterexample: `get_sort_key` parses the ordinal from the number
field, not the label.  With number fields `1`/`2` and labels `zz`/`1 a`,
the program keeps the annotations in input order, while the claimed
label-parsed key (missing/non-numeric sorting last) requires the `1 a`
annotation to be placed strictly first. -/
theorem c5_counterexample :
    sortComments [c5A, c5B] = [c5A, c5B] ∧
    specKeyLt c5B c5A ∧ ¬ specKeyLt c5A c5B ∧
    parseOrdinal c5A.num = 1 ∧ parseOrdinal c5B.num = 2 ∧
    labelOrdinal c5A = none ∧ labelOrdinal c5B = some 1 := by
  refine ⟨by decide, by decide, by decide, by decide, by decide,
    by decide, by decide⟩

/-- C5 (amended): `add_comments` sorts each page's annotations by
`get_sort_key` — ordinal parsed as the first digit run of the number
field, with missing or non-numeric fields mapped to the sentinel `99999`
(hence sorting after every ordinal below `99999`, but not after larger
ones), then label length descending, then original input order — so the
output is a permutation of the input that is pairwise ordered by that key;
in particular, of two annotations with equal parsed ordinals the longer
label comes first. -/
theorem c5_sort_key_order (cs : List CommentAnn) :
    (sortComments cs).Pairwise keyLe ∧ List.Perm (sortComments cs) cs := by
  constructor
  · induction cs with
    | nil => simp [sortComments]
    | cons x xs ih => exact insSorted_pairwise ih
  · exact sortComments_perm cs

/-- Regular alternation of a reading-side segment list (the property the
`next_style_dict` walk of `extract_witnesses_right` checks). -/
def regularAlternation : List (Bool × Str) → Prop
  | [] => True
  | (st, _) :: rest => alternating st rest = true

instance : ∀ after : List (Bool × Str), Decidable (regularAlternation after)
  | [] => .isTrue trivial
  | (_, _) :: _ => inferInstanceAs (Decidable (_ = true))

/-- Equal numbers of plain-text and italic segments. -/
def countsEqual (after : List (Bool × Str)) : Prop :=
  (after.filter (fun p => p.1 = false)).length =
    (after.filter (fun p => p.1 = true)).length

instance (after : List (Bool × Str)) : Decidable (countsEqual after) := by
  unfold countsEqual; infer_instance

/-- The structured result in the accepted cases, by head style. -/
def parsedReadings (eds : List (Str × Str)) (after : List (Bool × Str)) :
    List (Str × Str) :=
  match after with
  | (false, _) :: _ =>
    (pairTextFirst after).map (fun p => (parse_wits eds p.2 'a' false, p.1))
  | _ =>
    (pairWitsFirst after).map (fun p => (parse_wits eds p.2 'b' false, p.1))

/-- C6 counterexample: on the empty segment list,
`extract_witnesses_right` raises (`prev_style = after[0][0]` is an
`IndexError`; the model returns `none`), so the function does not accept
every reading-side citation segment list without raising. -/
theorem c6_counterexample :
    extract_witnesses_right [] ['E', 'd'] [] = none := by decide

/-- C6 (amended): for every NONEMPTY reading-side segment list the
reconciler never raises; with at least two segments it accepts exactly the
two strict alternations (plain text first, or sigla first, the branch
chosen by the first segment's style), and whenever the alternation is
irregular or the counts of text and sigla segments differ it returns the
single `'unparsed'` marker carrying the raw joined text. -/
theorem c6_unparsed_fallback (eds : List (Str × Str)) (defaultId : Str)
    (after : List (Bool × Str)) (h : after ≠ []) :
    (extract_witnesses_right eds defaultId after).isSome ∧
    (2 ≤ after.length →
      ¬ (regularAlternation after ∧ countsEqual after) →
      extract_witnesses_right eds defaultId after =
        some [(['u', 'n', 'p', 'a', 'r', 's', 'e', 'd'], unparsedJoin after)]) ∧
    (2 ≤ after.length → regularAlternation after → countsEqual after →
      extract_witnesses_right eds defaultId after =
        some (parsedReadings eds after)) := by
  match after with
  | [] => exact absurd rfl h
  | [(st, t)] =>
    refine ⟨?_, by intro h2; simp at h2, by intro h2; simp at h2⟩
    cases st <;> simp [extract_witnesses_right]
  | (st0, t0) :: (st1, t1) :: rest =>
    refine ⟨?_, ?_, ?_⟩
    · rw [extract_witnesses_right]
      split <;> try simp
      split <;> try simp
      split <;> simp
    · intro _ hbad
      rw [extract_witnesses_right]
      split
      · rfl
      · split
        · rfl
        · rename_i hreg hcnt
          exfalso
          refine hbad ⟨?_, ?_⟩
          · simpa [regularAlternation] using not_not.mp (by simpa using hreg)
          · unfold countsEqual
            simpa using not_not.mp (by simpa using hcnt)
    · intro _ hreg hcnt
      rw [extract_witnesses_right]
      split
      · rename_i hr
        exact absurd (by simpa [regularAlternation] using hreg) hr
      · split
        · rename_i hc
          exact absurd (by simpa [countsEqual] using hcnt) hc
        · split
          · rename_i hst
            subst hst
            rfl
          · rename_i hst
            have : st0 = true := by
              cases st0
              · exact absurd rfl hst
              · rfl
            subst this
            rfl

theorem c6_unparsed_fallback_witness :
    ([(false, ['f', 'i', 'd', 'e']), (true, ['W']), (false, ['x'])] ≠
      ([] : List (Bool × Str))) ∧
    extract_witnesses_right [] ['E', 'd']
        [(false, ['f', 'i', 'd', 'e']), (true, ['W']), (false, ['x'])] =
      some [(['u', 'n', 'p', 'a', 'r', 's', 'e', 'd'],
             ['f', 'i', 'd', 'e', ' ', '|', ' ', 'W', ' ', '|', ' ', 'x'])] :=
  ⟨by decide,
   by
    have h := (c6_unparsed_fallback [] ['E', 'd']
      [(false, ['f', 'i', 'd', 'e']), (true, ['W']), (false, ['x'])]
      (by decide)).2.1 (by decide) (by decide)
    simpa [unparsedJoin, pyStrip, stripLeft, List.intercalate] using h⟩

theorem ellipMatch_space (r : Str) : ellipMatch (' ' :: r) = none := rfl

theorem ellipMatchR_space (r : List RCh) : ellipMatchR (.ch ' ' :: r) = none := rfl

theorem sub1F_spaces (s : Str) (hs : ∀ c ∈ s, c = ' ') :
    ∀ (fuel : Nat), s.length < fuel → ∀ prev, sub1F fuel prev s = s.map RCh.ch := by
  induction s with
  | nil =>
    intro fuel hf prev
    cases fuel with
    | zero => omega
    | succ f => rfl
  | cons c r ih =>
    intro fuel hf prev
    have hc : c = ' ' := hs c (by simp)
    subst hc
    have hr : ∀ c ∈ r, c = ' ' := fun c hc => hs c (by simp [hc])
    cases fuel with
    | zero => omega
    | succ f =>
      have hrf : r.length < f := by simp only [List.length_cons] at hf; omega
      rw [sub1F]
      split
      · simp only [ellipMatch_space, List.map_cons]
        rw [ih hr f hrf]
      · simp only [List.map_cons]
        rw [ih hr f hrf]

theorem sub1_spaces (s : Str) (hs : ∀ c ∈ s, c = ' ') (prev : Option Char) :
    sub1 prev s = s.map RCh.ch :=
  sub1F_spaces s hs (s.length + 1) (by omega) prev

theorem sub2F_spaces (s : Str) (hs : ∀ c ∈ s, c = ' ') :
    ∀ (fuel : Nat), s.length < fuel → sub2F fuel (s.map RCh.ch) = s.map RCh.ch := by
  induction s with
  | nil =>
    intro fuel hf
    cases fuel with
    | zero => omega
    | succ f => rfl
  | cons c r ih =>
    intro fuel hf
    have hc : c = ' ' := hs c (by simp)
    subst hc
    have hr : ∀ c ∈ r, c = ' ' := fun c hc => hs c (by simp [hc])
    cases fuel with
    | zero => omega
    | succ f =>
      have hrf : r.length < f := by simp only [List.length_cons] at hf; omega
      simp only [List.map_cons]
      rw [sub2F]
      simp only [ellipMatchR_space]
      rw [ih hr f hrf]

theorem sub2_spaces (s : Str) (hs : ∀ c ∈ s, c = ' ') :
    sub2 (s.map RCh.ch) = s.map RCh.ch := by
  have := sub2F_spaces s hs ((s.map RCh.ch).length + 1) (by simp)
  simpa [sub2] using this

theorem splitScan_spaces (s : Str) (hs : ∀ c ∈ s, c = ' ') :
    ∀ acc, (∀ c ∈ acc, c = ' ') →
    ∀ p ∈ splitScan acc (s.map RCh.ch), ∃ t, p = .txt t ∧ ∀ c ∈ t, c = ' ' := by
  induction s with
  | nil =>
    intro acc hacc p hp
    simp only [List.map_nil, splitScan, flushAcc] at hp
    split at hp
    · simp at hp
    · simp only [List.mem_singleton] at hp
      subst hp
      exact ⟨acc.reverse, rfl, fun c hc => hacc c (List.mem_reverse.mp hc)⟩
  | cons c r ih =>
    intro acc hacc p hp
    have hc : c = ' ' := hs c (by simp)
    subst hc
    have hr : ∀ c ∈ r, c = ' ' := fun c hc => hs c (by simp [hc])
    have hacc' : ∀ c ∈ (' ' :: acc), c = ' ' := by
      intro c hc
      rcases List.mem_cons.mp hc with rfl | h
      · rfl
      · exact hacc c h
    simp only [List.map_cons] at hp
    rw [show splitScan acc (RCh.ch ' ' :: r.map RCh.ch) =
        splitScan (' ' :: acc) (r.map RCh.ch) from rfl] at hp
    exact ih hr (' ' :: acc) hacc' p hp

theorem latSegsScan_space_txts (ps : List Part)
    (hps : ∀ p ∈ ps, ∃ t, p = .txt t ∧ ∀ c ∈ t, c = ' ') :
    latSegsScan [] ps = [] := by
  induction ps with
  | nil => rfl
  | cons p r ih =>
    obtain ⟨t, rfl, ht⟩ := hps p (by simp)
    have hfil : t.filter (· ≠ ' ') = [] := by
      rw [List.filter_eq_nil]
      intro c hc
      simp [ht c hc]
    rw [show latSegsScan [] (Part.txt t :: r) =
        latSegsScan ([] ++ partToks (.txt t)) r from rfl]
    rw [show partToks (.txt t) = interleaveJoiner (t.filter (· ≠ ' ')) from rfl]
    rw [hfil]
    exact ih (fun p hp => hps p (by simp [hp]))

/-- C8 counterexample: the "impossible" sentinel is the compiled literal
pattern `IMPOSSIBLE_MATCH_PLACEHOLDER`; on a subject that contains that
literal text it succeeds, so the sentinel matcher is not one that "can
never succeed on any input text". -/
theorem c8_counterexample :
    create_label_regex [] = sentinelToks ∧
    reSearch (create_label_regex [])
      (['x', ' '] ++
       ['I', 'M', 'P', 'O', 'S', 'S', 'I', 'B', 'L', 'E', '_', 'M', 'A', 'T',
        'C', 'H', '_', 'P', 'L', 'A', 'C', 'E', 'H', 'O', 'L', 'D', 'E', 'R']) =
      some (2, 30) := by
  constructor
  · rfl
  · decide

theorem reMatchF_lits_prefix :
    ∀ (fuel : Nat) (p : List Char) (s : Str) (prev : Option Char) (n : Nat),
      reMatchF fuel (lits p) s prev = some n →
      ∃ rest, s.map Char.toLower = p.map Char.toLower ++ rest := by
  intro fuel
  induction fuel with
  | zero => intro p s prev n h; simp [reMatchF] at h
  | succ f ih =>
    intro p s prev n h
    match p with
    | [] => exact ⟨s.map Char.toLower, by simp⟩
    | c :: p' =>
      rw [show lits (c :: p') = Tok.lit c :: lits p' from rfl] at h
      match s with
      | [] =>
        rw [reMatchF] at h
        simp at h
      | x :: s' =>
        rw [reMatchF] at h
        split at h
        · rename_i hx
          match hrec : reMatchF f (lits p') s' (some x) with
          | some m =>
            obtain ⟨rest, hr⟩ := ih p' s' (some x) m hrec
            exact ⟨rest, by simp only [List.map_cons, hx, hr, List.cons_append]⟩
          | none => rw [hrec] at h; simp at h
        · simp at h

theorem reSearchAux_lits_infix (p : List Char) :
    ∀ (s : Str) (prev : Option Char) (i : Nat),
      (reSearchAux (lits p) s prev i).isSome = true →
      ∃ a b, s.map Char.toLower = a ++ p.map Char.toLower ++ b := by
  intro s
  induction s with
  | nil =>
    intro prev i h
    rw [reSearchAux] at h
    cases hm : reMatch (lits p) [] prev with
    | some n =>
      obtain ⟨rest, hr⟩ :=
        reMatchF_lits_prefix _ p [] prev n (by rw [reMatch] at hm; exact hm)
      exact ⟨[], rest, by simpa using hr⟩
    | none => rw [hm] at h; simp [Option.orElse] at h
  | cons x s' ih =>
    intro prev i h
    rw [reSearchAux] at h
    cases hm : reMatch (lits p) (x :: s') prev with
    | some n =>
      obtain ⟨rest, hr⟩ :=
        reMatchF_lits_prefix _ p (x :: s') prev n (by rw [reMatch] at hm; exact hm)
      exact ⟨[], rest, by simpa using hr⟩
    | none =>
      rw [hm] at h
      simp only [Option.map_none', Option.orElse] at h
      obtain ⟨a, b, hab⟩ := ih (some x) (i + 1) h
      exact ⟨x.toLower :: a, b, by simp [hab]⟩

/-- C8 (amended): a label that reduces to nothing after cleaning (its
cleaned form holds only spaces, hence the regex string is empty) compiles
to the fixed literal sentinel pattern `IMPOSSIBLE_MATCH_PLACEHOLDER` — the
compiler is a total function and never throws — and that sentinel can only
succeed on a subject that contains the placeholder text itself
(case-insensitively); on any other input it fails. -/
theorem c8_sentinel_on_empty_label (label : Str)
    (h : ∀ c ∈ cleanedLabel label, c = ' ') :
    create_label_regex label = sentinelToks ∧
    (∀ s : Str, (reSearch (create_label_regex label) s).isSome = true →
      ∃ a b, s.map Char.toLower =
        a ++ (['i', 'm', 'p', 'o', 's', 's', 'i', 'b', 'l', 'e', '_', 'm',
               'a', 't', 'c', 'h', '_', 'p', 'l', 'a', 'c', 'e', 'h', 'o',
               'l', 'd', 'e', 'r']) ++ b) := by
  have hsent : create_label_regex label = sentinelToks := by
    have hparts := splitScan_spaces (cleanedLabel label) h [] (by simp)
    have hcore : regexCore label = [] := by
      unfold regexCore
      rw [sub1_spaces (cleanedLabel label) h none,
          sub2_spaces (cleanedLabel label) h]
      exact latSegsScan_space_txts _ hparts
    rw [create_label_regex, hcore]
    rfl
  refine ⟨hsent, ?_⟩
  intro s hs
  rw [hsent] at hs
  have := reSearchAux_lits_infix
    (['I', 'M', 'P', 'O', 'S', 'S', 'I', 'B', 'L', 'E', '_', 'M', 'A', 'T',
      'C', 'H', '_', 'P', 'L', 'A', 'C', 'E', 'H', 'O', 'L', 'D', 'E', 'R'])
    s none 0 hs
  simpa using this

theorem c8_sentinel_on_empty_label_witness :
    (∀ c ∈ cleanedLabel [' ', ' '], c = ' ') ∧
    create_label_regex [' ', ' '] = sentinelToks :=
  ⟨by decide, (c8_sentinel_on_empty_label [' ', ' '] (by decide)).1⟩

/-- C3 counterexample: the ellipsis patterns of `create_label_regex`
require at least three periods (`\.{3,}`) or a spaced form (`\.{2,} \.+`,
`\. \.{2,}`); a run of exactly two periods is not collapsed: the label
`ab..cd` does not match `ab xyz cd` (the claim's wildcard reading), and its
two periods remain literal (it matches the literal text `ab..cd`). -/
theorem c3_counterexample :
    reSearch (create_label_regex ['a', 'b', '.', '.', 'c', 'd'])
      ['a', 'b', ' ', 'x', 'y', 'z', ' ', 'c', 'd'] = none ∧
    reSearch (create_label_regex ['a', 'b', '.', '.', 'c', 'd'])
      ['a', 'b', '.', '.', 'c', 'd'] = some (0, 6) := by
  constructor
  · decide
  · decide

theorem optMap_isSome {α β : Type} (f : α → β) (o : Option α) :
    (o.map f).isSome = o.isSome := by cases o <;> rfl

/-- The continuation tokens after the wildcard in the compiled `ab...cd`. -/
def c3ts : List Tok :=
  [Tok.lit 'c', Tok.joiner, Tok.lit 'd', Tok.wb, Tok.opt punctCls, Tok.wb]

theorem c3ts_match (g : Nat) (prev : Option Char) :
    reMatchF (g + 8) c3ts ['c', 'd'] prev = some 2 := rfl

theorem c3_wild_skips : ∀ (m : Str), '\n' ∉ m →
    ∀ (fuel : Nat) (prev : Option Char), m.length + 9 ≤ fuel →
      (reMatchF fuel (Tok.wild :: c3ts) (m ++ ['c', 'd']) prev).isSome = true := by
  intro m
  induction m with
  | nil =>
    intro _ fuel prev hf
    cases fuel with
    | zero => omega
    | succ f =>
      obtain ⟨g, rfl⟩ : ∃ g, f = g + 8 := ⟨f - 8, by omega⟩
      rw [reMatchF.eq_def]
      simp only [List.nil_append, c3ts_match]
      rfl
  | cons x m' ih =>
    intro hnl fuel prev hf
    rw [List.mem_cons, not_or] at hnl
    have hx : ¬(x = '\n') := fun h => hnl.1 h.symm
    cases fuel with
    | zero => simp at hf
    | succ f =>
      rw [reMatchF.eq_def]
      simp only [List.cons_append]
      cases hfst : reMatchF f c3ts (x :: (m' ++ ['c', 'd'])) prev with
      | some n => simp [Option.orElse]
      | none =>
        have hih := ih hnl.2 f (some x) (by simp at hf; omega)
        simpa [Option.orElse, optMap_isSome, hx] using hih

theorem reSearch_isSome_of_head {toks : List Tok} {s : Str}
    (h : (reMatch toks s none).isSome = true) :
    (reSearch toks s).isSome = true := by
  rw [reSearch, reSearchAux.eq_def]
  cases hm : reMatch toks s none with
  | some n => simp [hm, Option.orElse]
  | none => rw [hm] at h; simp at h

/-- C3 (amended): a run of three or more periods (equivalently the spaced
editorial forms, e.g. `. . .` which is normalised to `...`) compiles to a
wildcard: the compiled pattern for `ab...cd` matches `ab ` ++ m ++ ` cd`
for every newline-free elided middle m — the wildcard is `.*?` compiled
without `re.DOTALL`, so a middle containing a newline is not matched
(second conjunct).  (When the run follows a word character the wildcard
carries a word boundary, which the space after `ab` satisfies.) -/
theorem c3_ellipsis_wildcard (m : Str) (hnl : '\n' ∉ m) :
    (reSearch (create_label_regex ['a', 'b', '.', '.', '.', 'c', 'd'])
      (['a', 'b', ' '] ++ m ++ [' ', 'c', 'd'])).isSome = true ∧
    reSearch (create_label_regex ['a', 'b', '.', '.', '.', 'c', 'd'])
      ['a', 'b', ' ', 'x', '\n', 'y', ' ', 'c', 'd'] = none := by
  refine ⟨?_, by decide⟩
  have htoks : create_label_regex ['a', 'b', '.', '.', '.', 'c', 'd'] =
      [Tok.wb, Tok.opt quoteCls, Tok.lit 'a', Tok.joiner, Tok.lit 'b',
       Tok.wb, Tok.wild] ++ c3ts := rfl
  rw [htoks]
  apply reSearch_isSome_of_head
  rw [show (['a', 'b', ' '] ++ m ++ [' ', 'c', 'd'] : Str) =
      'a' :: 'b' :: ' ' :: (m ++ [' ', 'c', 'd']) by simp]
  rw [reMatch]
  have hconsume : ∀ (X : Str) (k : Nat),
      reMatchF (k + 7)
        ([Tok.wb, Tok.opt quoteCls, Tok.lit 'a', Tok.joiner, Tok.lit 'b',
          Tok.wb, Tok.wild] ++ c3ts) ('a' :: 'b' :: ' ' :: X) none =
      ((reMatchF (k + 1) (Tok.wild :: c3ts) (' ' :: X) (some 'b')).map
        (· + 1)).map (· + 1) := fun X k => rfl
  have hlen : ('a' :: 'b' :: ' ' :: (m ++ [' ', 'c', 'd'])).length +
      ([Tok.wb, Tok.opt quoteCls, Tok.lit 'a', Tok.joiner, Tok.lit 'b',
        Tok.wb, Tok.wild] ++ c3ts).length + 1 = (m.length + 13) + 7 := by
    simp [c3ts]
  rw [hlen, hconsume (m ++ [' ', 'c', 'd']) (m.length + 13)]
  simp only [optMap_isSome]
  have : (' ' :: (m ++ [' ', 'c', 'd']) : Str) =
      (' ' :: (m ++ [' '])) ++ ['c', 'd'] := by simp
  rw [this]
  exact c3_wild_skips (' ' :: (m ++ [' ']))
    (by
      rw [List.mem_cons, not_or]
      refine ⟨by decide, ?_⟩
      rw [List.mem_append, not_or]
      exact ⟨hnl, by decide⟩)
    (m.length + 13 + 1) (some 'b') (by simp)

theorem c3_ellipsis_wildcard_witness :
    ('\n' ∉ (['x', 'y'] : Str)) ∧
    ((reSearch (create_label_regex ['a', 'b', '.', '.', '.', 'c', 'd'])
      (['a', 'b', ' '] ++ ['x', 'y'] ++ [' ', 'c', 'd'])).isSome = true ∧
     reSearch (create_label_regex ['a', 'b', '.', '.', '.', 'c', 'd'])
      ['a', 'b', ' ', 'x', '\n', 'y', ' ', 'c', 'd'] = none) :=
  ⟨by decide, c3_ellipsis_wildcard ['x', 'y'] (by decide)⟩

/-! Concrete page for the self-match suppression scenario. -/

def c1Doc : Doc :=
  [⟨[], [⟨pbTag, [], "ante lumen lumen post".toList, "7".toList, none, []⟩]⟩]

def c1Ann1 : CommentAnn := ⟨some "1".toList, "lumen".toList, "n1".toList, 0⟩
def c1Ann2 : CommentAnn := ⟨some "2".toList, "lumen".toList, "n2".toList, 1⟩

/-- The page after both same-label annotations have been placed: the first
consumed the first `lumen`, the second the second. -/
def c1DocAfter : Doc :=
  [⟨[], [⟨pbTag, [], "ante ".toList, "7".toList, none, []⟩,
         ⟨anchorTag, [], "lumen".toList, [], some "lumen".toList, []⟩,
         ⟨appTag, [], " ".toList, [], none, "n1".toList⟩,
         ⟨anchorTag, [], "lumen".toList, [], some "lumen".toList, []⟩,
         ⟨appTag, [], " post".toList, [], none, "n2".toList⟩]⟩]

/-- The page mid-run, after the first placement (used by the witness). -/
def c1MidDoc : Doc :=
  [⟨[], [⟨pbTag, [], "ante ".toList, "7".toList, none, []⟩,
         ⟨anchorTag, [], "lumen".toList, [], some "lumen".toList, []⟩,
         ⟨appTag, [], " lumen post".toList, [], none, "n1".toList⟩]⟩]

/-- C1: if a candidate match starts at offset 0 of the tail of a node that
the driver created for an earlier annotation with the identical label (an
`anchor`, which is never the paragraph's first child), the scan step skips
that match and merely advances the cursor — and consequently, placing one
annotation with a given label consumes exactly one occurrence: on the page
`ante lumen lumen post`, two annotations labelled `lumen` are both placed,
at the first and at the second occurrence, with no failures. -/
theorem c1_self_match_suppression :
    (∀ (doc : Doc) (find : Finder) (label : Str) (p i e : Nat)
       (para : Para) (ch : Child),
      doc[p]? = some para → para.children[i]? = some ch →
      ch.createdFor = some label → ch.tag = anchorTag → i ≠ 0 →
      find (strip_accents ch.tail) = some (0, e) →
      commentStep doc find label ⟨p, some i⟩ =
        ([Fld.ctail p i],
         match para.children[i + 1]? with
         | some ch' =>
           if ch'.tag = pbTag then CStep.stop else CStep.next ⟨p, some (i + 1)⟩
         | none => CStep.next ⟨p + 1, none⟩)) ∧
    add_comments_page true c1Doc "7".toList [c1Ann1, c1Ann2] =
      (c1DocAfter, 0, []) := by
  constructor
  · intro doc find label p i e para ch hp hc hcr htag hi hm
    rw [commentStep, hp]
    simp only [hc]
    have hchk1 : (i == 0 && para.text != []) = false := by
      cases h0 : i == 0 with
      | true => exact absurd (by simpa using h0) hi
      | false => rfl
    rw [hchk1]
    simp only [if_neg (by simp : ¬ (false = true)), Bool.false_eq_true,
      if_false]
    have hchk2 : decide (ch.tag ∈ ENCLOSING_TAGS) = false := by
      rw [htag]; decide
    rw [hchk2]
    simp only [Bool.false_eq_true, if_false, hm, hcr]
    simp only [List.nil_append]
    cases hnext : para.children[i + 1]? with
    | none => simp
    | some ch' => by_cases htag' : ch'.tag = pbTag <;> simp [htag']
  · decide

theorem c1_self_match_suppression_witness :
    ((c1MidDoc[0]?.map Para.children).getD [])[1]?.all
        (fun ch => ch.createdFor == some "lumen".toList) = true ∧
    commentStep c1MidDoc (reSearch (create_label_regex "lumen".toList))
        "lumen".toList ⟨0, some 1⟩ =
      ([Fld.ctail 0 1], CStep.next ⟨0, some 2⟩) := by
  refine ⟨by decide, ?_⟩
  have h := c1_self_match_suppression.1 c1MidDoc
    (reSearch (create_label_regex "lumen".toList)) "lumen".toList 0 1 5
    ⟨[], [⟨pbTag, [], "ante ".toList, "7".toList, none, []⟩,
          ⟨anchorTag, [], "lumen".toList, [], some "lumen".toList, []⟩,
          ⟨appTag, [], " lumen post".toList, [], none, "n1".toList⟩]⟩
    ⟨anchorTag, [], "lumen".toList, [], some "lumen".toList, []⟩
    (by decide) (by decide) (by decide) (by decide) (by decide) (by decide)
  exact h.trans (by decide)

/-- C2: an annotation whose compiled pattern finds no occurrence in its
page scope (the scan exhausts the scope and reports not-found) leaves the
document unchanged, increments the failure count, emits the best-effort
fragment exactly when a side-channel file is configured, and processing
continues with the remaining annotations — for the comment driver, the
critical-apparatus entry processor, and the critical page loop. -/
theorem c2_unmatched_records_failure :
    (∀ (commentFile : Bool) (doc : Doc) (pb : Nat × Nat) (a : CommentAnn)
       (rest : List CommentAnn) (fails : Nat) (duds : List (Str × Str)),
      (commentScanRun doc (reSearch (create_label_regex a.label)) a.label
          (cMeasure doc ⟨pb.1, some pb.2⟩ + 1) ⟨pb.1, some pb.2⟩).1 =
        ScanRes.notFound →
      add_comments_go commentFile doc pb (a :: rest) fails duds =
        add_comments_go commentFile doc pb rest (fails + 1)
          (if commentFile then duds ++ [(a.label, a.note)] else duds)) ∧
    (∀ (doc : Doc) (pageN : Str) (st : CritCarry) (en : CritEntry)
       (st1 : CritCarry) (lk : Bool),
      critEntryStart doc pageN st en = some st1 →
      (critScanRun doc (reSearch (create_label_regex en.lemLabel))
          (critMeasure doc ⟨st1.startParent, st1.cur, st1.look⟩ + 1)
          ⟨st1.startParent, st1.cur, st1.look⟩).1 = KRes.notFound lk →
      critEntryRun doc pageN st en =
        some (doc, ⟨st1.cur, st1.startParent, lk, some en.num⟩, 1)) ∧
    (∀ (apparatusFile : Bool) (pageN : Str) (doc : Doc) (st st' : CritCarry)
       (en : CritEntry) (rest : List CritEntry) (fails : Nat)
       (failed duds : List CritEntry),
      critEntryRun doc pageN st en = some (doc, st', 1) →
      add_critical_page_go apparatusFile pageN doc st (en :: rest) fails
          failed duds =
        add_critical_page_go apparatusFile pageN doc st' rest (fails + 1)
          (failed ++ [en]) (if apparatusFile then duds ++ [en] else duds)) := by
  refine ⟨?_, ?_, ?_⟩
  · intro commentFile doc pb a rest fails duds hnf
    rw [add_comments_go]
    obtain ⟨res, vs⟩ : ∃ r v, commentScanRun doc
        (reSearch (create_label_regex a.label)) a.label
        (cMeasure doc ⟨pb.1, some pb.2⟩ + 1) ⟨pb.1, some pb.2⟩ = (r, v) :=
      ⟨_, _, rfl⟩
    obtain ⟨v, hrun⟩ := vs
    rw [hrun] at hnf ⊢
    simp only [] at hnf
    subst hnf
    rfl
  · intro doc pageN st en st1 lk hstart hnf
    rw [critEntryRun, hstart]
    simp only []
    obtain ⟨r, v, hrun⟩ : ∃ r v, critScanRun doc
        (reSearch (create_label_regex en.lemLabel))
        (critMeasure doc ⟨st1.startParent, st1.cur, st1.look⟩ + 1)
        ⟨st1.startParent, st1.cur, st1.look⟩ = (r, v) := ⟨_, _, rfl⟩
    rw [hrun] at hnf ⊢
    simp only [] at hnf
    subst hnf
    rfl
  · intro apparatusFile pageN doc st st' en rest fails failed duds hrun
    rw [add_critical_page_go, hrun]
    simp

theorem c2_unmatched_records_failure_witness :
    (commentScanRun c1Doc
        (reSearch (create_label_regex "nusquam".toList)) "nusquam".toList
        (cMeasure c1Doc ⟨0, some 0⟩ + 1) ⟨0, some 0⟩).1 = ScanRes.notFound ∧
    add_comments_go true c1Doc (0, 0)
        [⟨some "1".toList, "nusquam".toList, "nx".toList, 0⟩] 0 [] =
      add_comments_go true c1Doc (0, 0) [] 1
        [("nusquam".toList, "nx".toList)] := by
  refine ⟨by decide, ?_⟩
  have h := c2_unmatched_records_failure.1 true c1Doc (0, 0)
    ⟨some "1".toList, "nusquam".toList, "nx".toList, 0⟩ [] 0 [] (by decide)
  simpa using h

/-- C9: when an apparatus entry's ordinal drops below the previous entry's
ordinal, the entry loop resets the scan position to the page's starting
page-break node (`saved_current = current = xpath(...)[0]`, parent and
`look_in_tail` reset) instead of raising, and processing of the entry
proceeds from there (`critEntryRun` yields a result). -/
theorem c9_ordinal_drop_resets (doc : Doc) (pageN : Str) (st : CritCarry)
    (en : CritEntry) (p : Nat) (loc : Nat × Nat)
    (hprev : st.prevNum = some p) (hdrop : en.num < p)
    (hfind : findPb doc pageN = some loc) :
    critEntryStart doc pageN st en = some ⟨loc, loc.1, true, st.prevNum⟩ ∧
    (critEntryRun doc pageN st en).isSome = true := by
  have hstart : critEntryStart doc pageN st en =
      some ⟨loc, loc.1, true, st.prevNum⟩ := by
    rw [critEntryStart, hprev]
    simp only [if_pos hdrop, hfind, hprev]
  refine ⟨hstart, ?_⟩
  rw [critEntryRun, hstart]
  simp only []
  obtain ⟨r, v, hrun⟩ : ∃ r v, critScanRun doc
      (reSearch (create_label_regex en.lemLabel))
      (critMeasure doc ⟨loc.1, loc, true⟩ + 1) ⟨loc.1, loc, true⟩ = (r, v) :=
    ⟨_, _, rfl⟩
  rw [hrun]
  cases r <;> simp

theorem c9_ordinal_drop_resets_witness :
    (some 13 : Option Nat) = some 13 ∧ (3 : Nat) < 13 ∧
    critEntryStart c1Doc "7".toList ⟨(0, 5), 0, false, some 13⟩
        ⟨3, "#W".toList, "ante".toList, []⟩ =
      some ⟨(0, 0), 0, true, some 13⟩ := by
  refine ⟨rfl, by norm_num, ?_⟩
  have h := c9_ordinal_drop_resets c1Doc "7".toList
    ⟨(0, 5), 0, false, some 13⟩ ⟨3, "#W".toList, "ante".toList, []⟩ 13 (0, 0)
    rfl (by norm_num) (by decide)
  exact h.1

/-! ## Termination: the scan measures strictly decrease -/

theorem getElem?_lt_length {doc : Doc} {p : Nat} {q : Para}
    (h : doc[p]? = some q) : p < doc.length := by
  by_contra hge
  rw [List.getElem?_eq_none (by omega)] at h
  simp at h

theorem tailWeight_eq {doc : Doc} {p : Nat} {q : Para}
    (h : doc[p]? = some q) :
    tailWeight doc p = paraWeight q + tailWeight doc (p + 1) := by
  have hlt := getElem?_lt_length h
  have hg : doc[p] = q := by
    have := List.getElem?_eq_getElem hlt
    rw [this] at h
    exact Option.some.inj h
  unfold tailWeight
  rw [List.drop_eq_getElem_cons hlt, hg]
  simp

theorem commentStep_next_lt {doc : Doc} {find : Finder} {label : Str}
    {st st' : CState} {vs : List Fld}
    (h : commentStep doc find label st = (vs, .next st')) :
    cMeasure doc st' < cMeasure doc st := by
  rw [commentStep] at h
  match hp : doc[st.p]? with
  | none => rw [hp] at h; simp at h
  | some para =>
    rw [hp] at h
    match hc : st.c with
    | some i =>
      rw [hc] at h
      simp only [] at h
      match hch : para.children[i]? with
      | none => rw [hch] at h; simp at h
      | some ch =>
        rw [hch] at h
        simp only [] at h
        have hilt : i < para.children.length := by
          by_contra hge
          rw [List.getElem?_eq_none (by omega)] at hch
          simp at hch
        split at h
        · simp at h
        · split at h
          · simp at h
          · split at h
            · simp at h
            · match hnx : para.children[i + 1]? with
              | some ch' =>
                rw [hnx] at h
                simp only [] at h
                split at h
                · simp at h
                · have hst' : st' = ⟨st.p, some (i + 1)⟩ := by
                    have h2 := ((Prod.mk.injEq _ _ _ _).mp h).2
                    cases h2
                    rfl
                  subst hst'
                  simp only [cMeasure, hp, hc]
                  omega
              | none =>
                rw [hnx] at h
                simp only [] at h
                have hst' : st' = ⟨st.p + 1, none⟩ := by
                  have h2 := ((Prod.mk.injEq _ _ _ _).mp h).2
                  cases h2
                  rfl
                subst hst'
                simp only [cMeasure, hp, hc]
                match hq : doc[st.p + 1]? with
                | none => simp only []; omega
                | some q =>
                  have ht := tailWeight_eq hq
                  unfold paraWeight at ht
                  simp only []
                  omega
    | none =>
      rw [hc] at h
      simp only [] at h
      split at h
      · simp at h
      · match hch : para.children[0]? with
        | some ch0 =>
          rw [hch] at h
          simp only [] at h
          split at h
          · simp at h
          · have hst' : st' = ⟨st.p, some 0⟩ := by
              have h2 := ((Prod.mk.injEq _ _ _ _).mp h).2
              cases h2
              rfl
            subst hst'
            simp only [cMeasure, hp, hc]
            omega
        | none =>
          rw [hch] at h
          simp only [] at h
          have hst' : st' = ⟨st.p + 1, none⟩ := by
            have h2 := ((Prod.mk.injEq _ _ _ _).mp h).2
            cases h2
            rfl
          subst hst'
          simp only [cMeasure, hp, hc]
          match hq : doc[st.p + 1]? with
          | none => simp only []; omega
          | some q =>
            have ht := tailWeight_eq hq
            unfold paraWeight at ht
            simp only []
            omega

theorem critStep_next_lt {doc : Doc} {find : Finder} {st st' : KState}
    {vs : List Fld}
    (h : critStep doc find st = (vs, .next st')) :
    critMeasure doc st' < critMeasure doc st := by
  rw [critStep] at h
  match hp : doc[st.parentP]? with
  | none => rw [hp] at h; simp at h
  | some para =>
    rw [hp] at h
    simp only [] at h
    split at h
    · rename_i hlook
      match hcp : doc[st.curPC.1]? with
      | none => rw [hcp] at h; simp at h
      | some cpara =>
        rw [hcp] at h
        simp only [] at h
        match hch : cpara.children[st.curPC.2]? with
        | none => rw [hch] at h; simp at h
        | some ch =>
          rw [hch] at h
          simp only [] at h
          have hilt : st.curPC.2 < cpara.children.length := by
            by_contra hge
            rw [List.getElem?_eq_none (by omega)] at hch
            simp at hch
          split at h
          · simp at h
          · match hnx : cpara.children[st.curPC.2 + 1]? with
            | some ch' =>
              rw [hnx] at h
              simp only [] at h
              split at h
              · simp at h
              · have hst' : st' = ⟨st.parentP, (st.curPC.1, st.curPC.2 + 1), true⟩ := by
                  have h2 := ((Prod.mk.injEq _ _ _ _).mp h).2
                  cases h2
                  rfl
                subst hst'
                simp [critMeasure, hp, hcp, hlook]
                omega
            | none =>
              rw [hnx] at h
              simp only [] at h
              have hst' : st' = ⟨st.parentP + 1, st.curPC, false⟩ := by
                have h2 := ((Prod.mk.injEq _ _ _ _).mp h).2
                cases h2
                rfl
              subst hst'
              simp [critMeasure, hp, hcp, hlook]
              match hq : doc[st.parentP + 1]? with
              | none => simp only []; omega
              | some q => simp only []; omega
    · rename_i hlook
      split at h
      · simp at h
      · match hch : para.children[0]? with
        | some ch0 =>
          rw [hch] at h
          simp only [] at h
          split at h
          · simp at h
          · have hst' : st' = ⟨st.parentP, (st.parentP, 0), true⟩ := by
              have h2 := ((Prod.mk.injEq _ _ _ _).mp h).2
              cases h2
              rfl
            subst hst'
            have ht := tailWeight_eq hp
            unfold paraWeight at ht
            simp [critMeasure, hp, hlook]
            omega
        | none =>
          rw [hch] at h
          simp only [] at h
          have hst' : st' = ⟨st.parentP + 1, st.curPC, false⟩ := by
            have h2 := ((Prod.mk.injEq _ _ _ _).mp h).2
            cases h2
            rfl
          subst hst'
          have ht := tailWeight_eq hp
          unfold paraWeight at ht
          simp [critMeasure, hp, hlook]
          match hq : doc[st.parentP + 1]? with
          | none => simp only []; omega
          | some q => simp only []; omega

theorem commentScanRun_ne_out (doc : Doc) (find : Finder) (label : Str) :
    ∀ (fuel : Nat) (st : CState), cMeasure doc st < fuel →
      (commentScanRun doc find label fuel st).1 ≠ ScanRes.out := by
  intro fuel
  induction fuel with
  | zero => intro st h; omega
  | succ f ih =>
    intro st h
    rw [commentScanRun]
    obtain ⟨vs, stp, hstep⟩ : ∃ v s, commentStep doc find label st = (v, s) :=
      ⟨_, _, rfl⟩
    rw [hstep]
    match stp with
    | .place loc s e => simp
    | .stop => simp
    | .next st' =>
      simp only []
      have hlt := commentStep_next_lt hstep
      exact ih st' (by omega)

theorem critScanRun_ne_out (doc : Doc) (find : Finder) :
    ∀ (fuel : Nat) (st : KState), critMeasure doc st < fuel →
      (critScanRun doc find fuel st).1 ≠ KRes.out := by
  intro fuel
  induction fuel with
  | zero => intro st h; omega
  | succ f ih =>
    intro st h
    rw [critScanRun]
    obtain ⟨vs, stp, hstep⟩ : ∃ v s, critStep doc find st = (v, s) := ⟨_, _, rfl⟩
    rw [hstep]
    match stp with
    | .place loc s e => simp
    | .stop lk => simp
    | .next st' =>
      simp only []
      have hlt := critStep_next_lt hstep
      exact ih st' (by omega)

/-- C10: with the fuel derived from the tree size (`cMeasure` /
`critMeasure`, both bounded by the total number of paragraphs and
children), every annotation scan reaches a decision — placed or not found
— and never runs out: every step strictly decreases the measure, so each
search is bounded by the tree size and the placement loops terminate. -/
theorem c10_scans_terminate :
    (∀ (doc : Doc) (find : Finder) (label : Str) (st : CState),
      (commentScanRun doc find label (cMeasure doc st + 1) st).1 ≠
        ScanRes.out) ∧
    (∀ (doc : Doc) (find : Finder) (st : KState),
      (critScanRun doc find (critMeasure doc st + 1) st).1 ≠ KRes.out) :=
  ⟨fun doc find label st =>
    commentScanRun_ne_out doc find label (cMeasure doc st + 1) st (by omega),
   fun doc find st =>
    critScanRun_ne_out doc find (critMeasure doc st + 1) st (by omega)⟩

/-! ## Position arithmetic for the scope theorems -/

theorem getElem?_some_lt {α : Type} {l : List α} {i : Nat} {x : α}
    (h : l[i]? = some x) : i < l.length := by
  by_contra hge
  rw [List.getElem?_eq_none (by omega)] at h
  simp at h

theorem basePos_succ {doc : Doc} {p : Nat} {q : Para}
    (h : doc[p]? = some q) :
    basePos doc (p + 1) = basePos doc p + (1 + 2 * q.children.length) := by
  unfold basePos
  rw [List.take_succ, h]
  simp [paraSlots]

theorem basePos_le_succ (doc : Doc) (p : Nat) :
    basePos doc p ≤ basePos doc (p + 1) := by
  match h : doc[p]? with
  | none =>
    unfold basePos
    have hlen : doc.length ≤ p := by
      by_contra hlt
      rw [List.getElem?_eq_getElem (by omega)] at h
      simp at h
    rw [List.take_of_length_le (by omega), List.take_of_length_le (by omega)]
  | some q => rw [basePos_succ h]; omega

theorem basePos_mono (doc : Doc) {p q : Nat} (h : p ≤ q) :
    basePos doc p ≤ basePos doc q := by
  induction q with
  | zero => simp_all
  | succ n ih =>
    rcases Nat.lt_or_ge p (n + 1) with hlt | hge
    · exact le_trans (ih (by omega)) (basePos_le_succ doc n)
    · have : p = n + 1 := by omega
      subst this
      exact le_refl _

/-- A child's tail slot lies strictly before the next paragraph's base. -/
theorem ctail_lt_basePos_succ {doc : Doc} {p i : Nat} {para : Para}
    (hp : doc[p]? = some para) (hi : i < para.children.length) :
    childPos doc p i + 1 < basePos doc (p + 1) := by
  rw [basePos_succ hp]
  unfold childPos
  omega

/-- Any state position below the page-break slot forces the state to lie
at or before the page break's paragraph (`p̂`), and strictly before its
index when in the same paragraph. -/
theorem child_state_cases {doc : Doc} {p i : Nat} {para : Para} {ch : Child}
    {ph ih : Nat} {parah : Para} {pbCh : Child}
    (hp : doc[p]? = some para) (hc : para.children[i]? = some ch)
    (hph : doc[ph]? = some parah) (hpb : parah.children[ih]? = some pbCh)
    (hlt : childPos doc p i < childPos doc ph ih) :
    p < ph ∨ (p = ph ∧ i < ih) := by
  rcases Nat.lt_trichotomy p ph with h1 | h1 | h1
  · exact Or.inl h1
  · subst h1
    unfold childPos at hlt
    right
    exact ⟨rfl, by omega⟩
  · exfalso
    have hihlt : ih < parah.children.length := getElem?_some_lt hpb
    have h2 : childPos doc ph ih + 1 < basePos doc (ph + 1) :=
      ctail_lt_basePos_succ hph hihlt
    have h3 : basePos doc (ph + 1) ≤ basePos doc p := basePos_mono doc (by omega)
    have h4 : basePos doc p ≤ childPos doc p i := by unfold childPos; omega
    omega

/-- A paragraph base position below the page-break slot forces the
paragraph to lie at or before the page break's paragraph. -/
theorem base_state_cases {doc : Doc} {p : Nat}
    {ph ih : Nat} {parah : Para} {pbCh : Child}
    (hph : doc[ph]? = some parah) (hpb : parah.children[ih]? = some pbCh)
    (hlt : basePos doc p < childPos doc ph ih) :
    p ≤ ph := by
  by_contra hgt
  have hihlt : ih < parah.children.length := getElem?_some_lt hpb
  have h2 : childPos doc ph ih + 1 < basePos doc (ph + 1) :=
    ctail_lt_basePos_succ hph hihlt
  have h3 : basePos doc (ph + 1) ≤ basePos doc p := basePos_mono doc (by omega)
  omega

/-- Scope safety of one comment-scan step: from a state strictly before a
`pb` child's slot, every examined field lies strictly before that slot,
and any successor state is still strictly before it. -/
theorem commentStep_scope {doc : Doc} {find : Finder} {label : Str}
    {ph ih : Nat} {parah : Para} {pbCh : Child}
    (hph : doc[ph]? = some parah) (hpb : parah.children[ih]? = some pbCh)
    (htag : pbCh.tag = pbTag) {st : CState}
    (hinv : statePos doc st < childPos doc ph ih) :
    (∀ v ∈ (commentStep doc find label st).1,
      fldPos doc v < childPos doc ph ih) ∧
    (∀ vs st', commentStep doc find label st = (vs, .next st') →
      statePos doc st' < childPos doc ph ih) := by
  have hihlt : ih < parah.children.length := getElem?_some_lt hpb
  have hbQ : basePos doc ph < childPos doc ph ih := by unfold childPos; omega
  match hp : doc[st.p]? with
  | none =>
    rw [commentStep, hp]
    exact ⟨by intro v hv; simp at hv, by intro vs st' h; simp at h⟩
  | some para =>
    match hc : st.c with
    | some i =>
      match hch : para.children[i]? with
      | none =>
        constructor
        · intro v hv
          rw [commentStep, hp, hc] at hv
          simp only [] at hv
          rw [hch] at hv
          simp at hv
        · intro vs st' h
          rw [commentStep, hp, hc] at h
          simp only [] at h
          rw [hch] at h
          simp at h
      | some ch =>
        have hilt : i < para.children.length := getElem?_some_lt hch
        have hinv' : childPos doc st.p i < childPos doc ph ih := by
          rw [statePos, hc] at hinv
          exact hinv
        have hcases := child_state_cases hp hch hph hpb hinv'
        -- the three candidate visit positions are all below the boundary
        have hvis : childPos doc st.p i + 1 < childPos doc ph ih := by
          rcases hcases with hlt | ⟨heq, hilt2⟩
          · have h1 := ctail_lt_basePos_succ hp hilt
            have h2 : basePos doc (st.p + 1) ≤ basePos doc ph :=
              basePos_mono doc (by omega)
            omega
          · subst heq
            unfold childPos at *
            omega
        have hbase : basePos doc st.p ≤ childPos doc st.p i := by
          unfold childPos; omega
        have hvfld : ∀ v, (v = Fld.ptext st.p ∨ v = Fld.ctext st.p i ∨
            v = Fld.ctail st.p i) → fldPos doc v < childPos doc ph ih := by
          intro v hv
          rcases hv with rfl | rfl | rfl
          · simp only [fldPos]; omega
          · simp only [fldPos]; unfold childPos at *; omega
          · simp only [fldPos]; unfold childPos at *; omega
        constructor
        · intro v hv
          apply hvfld
          rw [commentStep, hp, hc] at hv
          simp only [] at hv
          rw [hch] at hv
          simp only [] at hv
          split at hv
          · rename_i s e
            simp only [List.mem_ite_nil_right, List.mem_singleton] at hv
            exact Or.inl hv.2
          · split at hv
            · rename_i s e
              simp only [List.mem_append, List.mem_ite_nil_right,
                List.mem_singleton] at hv
              tauto
            · -- remaining outcomes all carry (v1 ++ v2) ++ v3
              have hmem : v ∈ ((if (i == 0 && para.text != []) = true
                    then [Fld.ptext st.p] else []) ++
                  (if decide (ch.tag ∈ ENCLOSING_TAGS) = true
                    then [Fld.ctext st.p i] else [])) ++ [Fld.ctail st.p i] := by
                split at hv
                · exact hv
                · split at hv
                  · split at hv <;> exact hv
                  · exact hv
              simp only [List.mem_append, List.mem_ite_nil_right,
                List.mem_singleton] at hmem
              tauto
        · intro vs st' h
          rw [commentStep, hp, hc] at h
          simp only [] at h
          rw [hch] at h
          simp only [] at h
          split at h
          · simp at h
          · split at h
            · simp at h
            · split at h
              · simp at h
              · match hnx : para.children[i + 1]? with
                | some ch' =>
                  rw [hnx] at h
                  simp only [] at h
                  split at h
                  · simp at h
                  · rename_i htag'
                    have hst' : st' = ⟨st.p, some (i + 1)⟩ := by
                      have h2 := ((Prod.mk.injEq _ _ _ _).mp h).2
                      cases h2
                      rfl
                    subst hst'
                    have hi1lt : i + 1 < para.children.length :=
                      getElem?_some_lt hnx
                    rw [statePos]
                    simp only []
                    rcases hcases with hlt | ⟨heq, hilt2⟩
                    · have h1 := ctail_lt_basePos_succ hp hi1lt
                      have h2 : basePos doc (st.p + 1) ≤ basePos doc ph :=
                        basePos_mono doc (by omega)
                      omega
                    · subst heq
                      have hne : i + 1 ≠ ih := by
                        intro hcon
                        rw [hcon] at hnx
                        rw [hp] at hph
                        have hpar : para = parah := Option.some.inj hph
                        rw [hpar] at hnx
                        rw [hnx] at hpb
                        have := Option.some.inj hpb
                        rw [← this] at htag
                        exact htag' htag
                      unfold childPos at *
                      omega
                | none =>
                  rw [hnx] at h
                  simp only [] at h
                  have hst' : st' = ⟨st.p + 1, none⟩ := by
                    have h2 := ((Prod.mk.injEq _ _ _ _).mp h).2
                    cases h2
                    rfl
                  subst hst'
                  rw [statePos]
                  simp only []
                  rcases hcases with hlt | ⟨heq, hilt2⟩
                  · have h2 : basePos doc (st.p + 1) ≤ basePos doc ph :=
                      basePos_mono doc (by omega)
                    omega
                  · exfalso
                    subst heq
                    rw [hp] at hph
                    have hpar : para = parah := Option.some.inj hph
                    subst hpar
                    have : i + 1 < para.children.length := by omega
                    rw [List.getElem?_eq_getElem this] at hnx
                    simp at hnx
    | none =>
      have hinv' : basePos doc st.p < childPos doc ph ih := by
        rw [statePos, hc] at hinv
        exact hinv
      have hple : st.p ≤ ph := base_state_cases hph hpb hinv'
      constructor
      · intro v hv
        rw [commentStep, hp, hc] at hv
        simp only [] at hv
        have hvmem : v = Fld.ptext st.p := by
          split at hv
          · simp at hv; exact hv
          · split at hv
            · rename_i ch0 hch0
              split at hv <;> simp at hv <;> exact hv
            · simp at hv; exact hv
        subst hvmem
        simp only [fldPos]
        exact hinv'
      · intro vs st' h
        rw [commentStep, hp, hc] at h
        simp only [] at h
        split at h
        · simp at h
        · match hch : para.children[0]? with
          | some ch0 =>
            rw [hch] at h
            simp only [] at h
            split at h
            · simp at h
            · rename_i htag'
              have hst' : st' = ⟨st.p, some 0⟩ := by
                have h2 := ((Prod.mk.injEq _ _ _ _).mp h).2
                cases h2
                rfl
              subst hst'
              rw [statePos]
              simp only []
              have h0lt : 0 < para.children.length := getElem?_some_lt hch
              rcases Nat.lt_or_ge st.p ph with hlt | hge
              · have h1 := ctail_lt_basePos_succ hp h0lt
                have h2 : basePos doc (st.p + 1) ≤ basePos doc ph :=
                  basePos_mono doc (by omega)
                omega
              · have heq : st.p = ph := by omega
                subst heq
                rw [hp] at hph
                have hpar : para = parah := Option.some.inj hph
                subst hpar
                have hne : ih ≠ 0 := by
                  intro hcon
                  rw [hcon] at hpb
                  rw [hch] at hpb
                  have := Option.some.inj hpb
                  rw [this] at htag'
                  exact htag' htag
                unfold childPos at *
                omega
          | none =>
            rw [hch] at h
            simp only [] at h
            have hst' : st' = ⟨st.p + 1, none⟩ := by
              have h2 := ((Prod.mk.injEq _ _ _ _).mp h).2
              cases h2
              rfl
            subst hst'
            rw [statePos]
            simp only []
            rcases Nat.lt_or_ge st.p ph with hlt | hge
            · have h2 : basePos doc (st.p + 1) ≤ basePos doc ph :=
                basePos_mono doc (by omega)
              omega
            · exfalso
              have heq : st.p = ph := by omega
              subst heq
              rw [hp] at hph
              have hpar : para = parah := Option.some.inj hph
              subst hpar
              rw [List.getElem?_eq_getElem (by omega)] at hch
              simp at hch

/-- Scope safety of the whole comment scan: started strictly before a `pb`
child's slot, it only ever examines fields strictly before that slot. -/
theorem commentScanRun_scope {doc : Doc} {find : Finder} {label : Str}
    {ph ih : Nat} {parah : Para} {pbCh : Child}
    (hph : doc[ph]? = some parah) (hpb : parah.children[ih]? = some pbCh)
    (htag : pbCh.tag = pbTag) :
    ∀ (fuel : Nat) (st : CState), statePos doc st < childPos doc ph ih →
      ∀ v ∈ (commentScanRun doc find label fuel st).2,
        fldPos doc v < childPos doc ph ih := by
  intro fuel
  induction fuel with
  | zero =>
    intro st hinv v hv
    simp [commentScanRun] at hv
  | succ n ihf =>
    intro st hinv v hv
    have hsc := @commentStep_scope doc find label ph ih parah pbCh
      hph hpb htag st hinv
    rw [commentScanRun] at hv
    match hstep : commentStep doc find label st with
    | (vs, CStep.place loc s e) =>
      rw [hstep] at hv
      exact hsc.1 v (by rw [hstep]; exact hv)
    | (vs, CStep.stop) =>
      rw [hstep] at hv
      exact hsc.1 v (by rw [hstep]; exact hv)
    | (vs, CStep.next st') =>
      rw [hstep] at hv
      simp only [] at hv
      rcases List.mem_append.mp hv with h1 | h2
      · exact hsc.1 v (by rw [hstep]; exact h1)
      · exact ihf st' (hsc.2 vs st' hstep) v h2

/-- Invariant of the critical scan relative to a `pb` child slot: in tail
mode the sibling cursor sits strictly before the slot and at or after its
recorded parent paragraph; in head mode the parent paragraph starts
strictly before the slot. -/
def kInv (doc : Doc) (ph ih : Nat) (st : KState) : Prop :=
  if st.look then
    childPos doc st.curPC.1 st.curPC.2 < childPos doc ph ih ∧
      basePos doc st.parentP ≤ childPos doc st.curPC.1 st.curPC.2
  else basePos doc st.parentP < childPos doc ph ih

instance (doc : Doc) (ph ih : Nat) (st : KState) :
    Decidable (kInv doc ph ih st) := by
  unfold kInv
  infer_instance

/-- Scope safety of one critical-scan step under `kInv`. -/
theorem critStep_scope {doc : Doc} {find : Finder}
    {ph ih : Nat} {parah : Para} {pbCh : Child}
    (hph : doc[ph]? = some parah) (hpb : parah.children[ih]? = some pbCh)
    (htag : pbCh.tag = pbTag) {st : KState} (hinv : kInv doc ph ih st) :
    (∀ v ∈ (critStep doc find st).1, fldPos doc v < childPos doc ph ih) ∧
    (∀ vs st', critStep doc find st = (vs, .next st') →
      kInv doc ph ih st') := by
  have hihlt : ih < parah.children.length := getElem?_some_lt hpb
  have hbQ : basePos doc ph < childPos doc ph ih := by unfold childPos; omega
  match hp : doc[st.parentP]? with
  | none =>
    rw [critStep, hp]
    exact ⟨by intro v hv; simp at hv, by intro vs st' h; simp at h⟩
  | some para =>
    match hlook : st.look with
    | true =>
      have hinv' : childPos doc st.curPC.1 st.curPC.2 < childPos doc ph ih ∧
          basePos doc st.parentP ≤ childPos doc st.curPC.1 st.curPC.2 := by
        rw [kInv, hlook] at hinv
        simpa using hinv
      match hcp : doc[st.curPC.1]? with
      | none =>
        constructor
        · intro v hv
          rw [critStep, hp] at hv
          simp only [] at hv
          rw [if_pos hlook, hcp] at hv
          simp at hv
        · intro vs st' h
          rw [critStep, hp] at h
          simp only [] at h
          rw [if_pos hlook, hcp] at h
          simp at h
      | some cpara =>
        match hch : cpara.children[st.curPC.2]? with
        | none =>
          constructor
          · intro v hv
            rw [critStep, hp] at hv
            simp only [] at hv
            rw [if_pos hlook, hcp] at hv
            simp only [] at hv
            rw [hch] at hv
            simp at hv
          · intro vs st' h
            rw [critStep, hp] at h
            simp only [] at h
            rw [if_pos hlook, hcp] at h
            simp only [] at h
            rw [hch] at h
            simp at h
        | some ch =>
          have hclt : st.curPC.2 < cpara.children.length := getElem?_some_lt hch
          have hcases := child_state_cases hcp hch hph hpb hinv'.1
          -- the examined tail slot lies strictly before the boundary
          have hvis : childPos doc st.curPC.1 st.curPC.2 + 1 <
              childPos doc ph ih := by
            rcases hcases with hlt | ⟨heq, hlt2⟩
            · have h1 := ctail_lt_basePos_succ hcp hclt
              have h2 : basePos doc (st.curPC.1 + 1) ≤ basePos doc ph :=
                basePos_mono doc (by omega)
              omega
            · rw [heq]
              rw [heq] at hinv'
              unfold childPos at *
              omega
          -- the containing paragraph is at or before the cursor paragraph
          have hple : st.parentP ≤ st.curPC.1 := by
            by_contra hgt
            have h1 := ctail_lt_basePos_succ hcp hclt
            have h2 : basePos doc (st.curPC.1 + 1) ≤ basePos doc st.parentP :=
              basePos_mono doc (by omega)
            omega
          constructor
          · intro v hv
            rw [critStep, hp] at hv
            simp only [] at hv
            rw [if_pos hlook, hcp] at hv
            simp only [] at hv
            rw [hch] at hv
            simp only [] at hv
            have hvmem : v = Fld.ctail st.curPC.1 st.curPC.2 := by
              split at hv
              · simp at hv; exact hv
              · split at hv
                · split at hv <;> simp at hv <;> exact hv
                · simp at hv; exact hv
            subst hvmem
            simp only [fldPos]
            unfold childPos at hvis ⊢
            omega
          · intro vs st' h
            rw [critStep, hp] at h
            simp only [] at h
            rw [if_pos hlook, hcp] at h
            simp only [] at h
            rw [hch] at h
            simp only [] at h
            split at h
            · simp at h
            · match hnx : cpara.children[st.curPC.2 + 1]? with
              | some ch' =>
                rw [hnx] at h
                simp only [] at h
                split at h
                · simp at h
                · rename_i htag'
                  have hst' : st' =
                      ⟨st.parentP, (st.curPC.1, st.curPC.2 + 1), true⟩ := by
                    have h2 := ((Prod.mk.injEq _ _ _ _).mp h).2
                    cases h2
                    rfl
                  subst hst'
                  have hc1lt : st.curPC.2 + 1 < cpara.children.length :=
                    getElem?_some_lt hnx
                  refine ⟨?_, ?_⟩
                  · show childPos doc st.curPC.1 (st.curPC.2 + 1) <
                      childPos doc ph ih
                    rcases hcases with hlt | ⟨heq, hlt2⟩
                    · have h1 := ctail_lt_basePos_succ hcp hc1lt
                      have h2 : basePos doc (st.curPC.1 + 1) ≤
                          basePos doc ph := basePos_mono doc (by omega)
                      omega
                    · have hne : st.curPC.2 + 1 ≠ ih := by
                        intro hcon
                        rw [heq] at hcp
                        rw [hcp] at hph
                        have hpar : cpara = parah := Option.some.inj hph
                        rw [hcon, hpar] at hnx
                        rw [hnx] at hpb
                        have := Option.some.inj hpb
                        rw [← this] at htag
                        exact htag' htag
                      rw [heq]
                      unfold childPos at *
                      omega
                  · show basePos doc st.parentP ≤
                      childPos doc st.curPC.1 (st.curPC.2 + 1)
                    have := hinv'.2
                    unfold childPos at *
                    omega
              | none =>
                rw [hnx] at h
                simp only [] at h
                have hst' : st' = ⟨st.parentP + 1, st.curPC, false⟩ := by
                  have h2 := ((Prod.mk.injEq _ _ _ _).mp h).2
                  cases h2
                  rfl
                subst hst'
                show basePos doc (st.parentP + 1) < childPos doc ph ih
                rcases hcases with hlt | ⟨heq, hlt2⟩
                · have h2 : basePos doc (st.parentP + 1) ≤
                      basePos doc (st.curPC.1 + 1) := basePos_mono doc (by omega)
                  have h3 := ctail_lt_basePos_succ hcp hclt
                  have h4 : basePos doc (st.curPC.1 + 1) ≤ basePos doc ph :=
                    basePos_mono doc (by omega)
                  omega
                · exfalso
                  rw [heq] at hcp
                  rw [hcp] at hph
                  have hpar : cpara = parah := Option.some.inj hph
                  subst hpar
                  rw [List.getElem?_eq_getElem (by omega)] at hnx
                  simp at hnx
    | false =>
      have hinv' : basePos doc st.parentP < childPos doc ph ih := by
        rw [kInv, hlook] at hinv
        simpa using hinv
      have hple : st.parentP ≤ ph := base_state_cases hph hpb hinv'
      have hneg : ¬(st.look = true) := by simp [hlook]
      constructor
      · intro v hv
        rw [critStep, hp] at hv
        simp only [] at hv
        rw [if_neg hneg] at hv
        have hvmem : v = Fld.ptext st.parentP := by
          split at hv
          · simp at hv; exact hv
          · split at hv
            · split at hv <;> simp at hv <;> exact hv
            · simp at hv; exact hv
        subst hvmem
        simp only [fldPos]
        exact hinv'
      · intro vs st' h
        rw [critStep, hp] at h
        simp only [] at h
        rw [if_neg hneg] at h
        split at h
        · simp at h
        · match hch : para.children[0]? with
          | some ch0 =>
            rw [hch] at h
            simp only [] at h
            split at h
            · simp at h
            · rename_i htag'
              have hst' : st' = ⟨st.parentP, (st.parentP, 0), true⟩ := by
                have h2 := ((Prod.mk.injEq _ _ _ _).mp h).2
                cases h2
                rfl
              subst hst'
              have h0lt : 0 < para.children.length := getElem?_some_lt hch
              refine ⟨?_, ?_⟩
              · show childPos doc st.parentP 0 < childPos doc ph ih
                rcases Nat.lt_or_ge st.parentP ph with hlt | hge
                · have h1 := ctail_lt_basePos_succ hp h0lt
                  have h2 : basePos doc (st.parentP + 1) ≤ basePos doc ph :=
                    basePos_mono doc (by omega)
                  omega
                · have heq : st.parentP = ph := by omega
                  rw [heq] at hp
                  rw [hp] at hph
                  have hpar : para = parah := Option.some.inj hph
                  subst hpar
                  have hne : ih ≠ 0 := by
                    intro hcon
                    rw [hcon, hch] at hpb
                    have := Option.some.inj hpb
                    rw [this] at htag'
                    exact htag' htag
                  rw [heq]
                  unfold childPos at *
                  omega
              · show basePos doc st.parentP ≤ childPos doc st.parentP 0
                unfold childPos
                omega
          | none =>
            rw [hch] at h
            simp only [] at h
            have hst' : st' = ⟨st.parentP + 1, st.curPC, false⟩ := by
              have h2 := ((Prod.mk.injEq _ _ _ _).mp h).2
              cases h2
              rfl
            subst hst'
            show basePos doc (st.parentP + 1) < childPos doc ph ih
            rcases Nat.lt_or_ge st.parentP ph with hlt | hge
            · have h2 : basePos doc (st.parentP + 1) ≤ basePos doc ph :=
                basePos_mono doc (by omega)
              omega
            · exfalso
              have heq : st.parentP = ph := by omega
              rw [heq] at hp
              rw [hp] at hph
              have hpar : para = parah := Option.some.inj hph
              subst hpar
              rw [List.getElem?_eq_getElem (by omega)] at hch
              simp at hch
/-- Scope safety of the whole critical scan under `kInv`. -/
theorem critScanRun_scope {doc : Doc} {find : Finder}
    {ph ih : Nat} {parah : Para} {pbCh : Child}
    (hph : doc[ph]? = some parah) (hpb : parah.children[ih]? = some pbCh)
    (htag : pbCh.tag = pbTag) :
    ∀ (fuel : Nat) (st : KState), kInv doc ph ih st →
      ∀ v ∈ (critScanRun doc find fuel st).2,
        fldPos doc v < childPos doc ph ih := by
  intro fuel
  induction fuel with
  | zero =>
    intro st hinv v hv
    simp [critScanRun] at hv
  | succ n ihf =>
    intro st hinv v hv
    have hsc := @critStep_scope doc find ph ih parah pbCh
      hph hpb htag st hinv
    rw [critScanRun] at hv
    match hstep : critStep doc find st with
    | (vs, KStep.place loc s e) =>
      rw [hstep] at hv
      exact hsc.1 v (by rw [hstep]; exact hv)
    | (vs, KStep.stop lk) =>
      rw [hstep] at hv
      exact hsc.1 v (by rw [hstep]; exact hv)
    | (vs, KStep.next st') =>
      rw [hstep] at hv
      simp only [] at hv
      rcases List.mem_append.mp hv with h1 | h2
      · exact hsc.1 v (by rw [hstep]; exact h1)
      · exact ihf st' (hsc.2 vs st' hstep) v h2

/-- C4: a page-scoped annotation search never examines text past the next
page-break node. If paragraph `ph` has a `pb` element as its `ih`-th
child, then every field examined by the comment scan started at any state
positioned strictly before that `pb`'s document-order slot — and every
field examined by the critical-apparatus scan started in any state
satisfying its scope invariant `kInv` — lies strictly before that slot:
the scan stops at the `pb` (reporting not-found) instead of crossing it. -/
theorem c4_scan_never_passes_next_pb {doc : Doc} {find : Finder}
    {label : Str} {ph ih : Nat} {parah : Para} {pbCh : Child}
    (hph : doc[ph]? = some parah) (hpb : parah.children[ih]? = some pbCh)
    (htag : pbCh.tag = pbTag) :
    (∀ (fuel : Nat) (st : CState), statePos doc st < childPos doc ph ih →
      ∀ v ∈ (commentScanRun doc find label fuel st).2,
        fldPos doc v < childPos doc ph ih) ∧
    (∀ (fuel : Nat) (st : KState), kInv doc ph ih st →
      ∀ v ∈ (critScanRun doc find fuel st).2,
        fldPos doc v < childPos doc ph ih) :=
  ⟨commentScanRun_scope hph hpb htag,
   critScanRun_scope hph hpb htag⟩

/-- A two-paragraph document whose second paragraph starts with a `pb`. -/
def c4WitPb : Child :=
  ⟨pbTag, [], ['t', 'a', 'i', 'l'], ['2'], none, []⟩

def c4WitPara : Para := ⟨['q'], [c4WitPb]⟩

def c4WitDoc : Doc :=
  [⟨['a', 'b'], [⟨['h', 'i'], ['x'], ['y'], [], none, []⟩]⟩, c4WitPara]

theorem c4_scan_never_passes_next_pb_witness :
    (c4WitDoc[1]? = some c4WitPara ∧ c4WitPara.children[0]? = some c4WitPb ∧
      c4WitPb.tag = pbTag) ∧
    ((∀ (fuel : Nat) (st : CState),
        statePos c4WitDoc st < childPos c4WitDoc 1 0 →
        ∀ v ∈ (commentScanRun c4WitDoc (fun _ => none) [] fuel st).2,
          fldPos c4WitDoc v < childPos c4WitDoc 1 0) ∧
     (∀ (fuel : Nat) (st : KState), kInv c4WitDoc 1 0 st →
        ∀ v ∈ (critScanRun c4WitDoc (fun _ => none) fuel st).2,
          fldPos c4WitDoc v < childPos c4WitDoc 1 0)) :=
  ⟨⟨rfl, rfl, rfl⟩, c4_scan_never_passes_next_pb rfl rfl rfl⟩

end TeiConv
